import Mathlib

/-! Verification development for the reference-extraction and
graph-construction engine of the KG-network repository
(src/src/network_processor.py), over a shallow embedding of its data model
and operations.  Python dicts are modelled as insertion-ordered association
lists, the rdflib triple graph as a duplicate-free list of triples, the
input directory as an association list from file names to parse outcomes,
and raising code as Except-valued functions. -/

/-- JSON-like values as parsed by the json module and manipulated by the
processor: strings, integers, booleans, null, arrays, and objects (Python
dicts, modelled as insertion-ordered association lists). -/
inductive JValue where
  | str (s : String)
  | num (n : Int)
  | bool (b : Bool)
  | null
  | arr (elems : List JValue)
  | obj (fields : List (String × JValue))

mutual

/-- Python repr of a JSON value, used by str() on lists and dicts. -/
def pyRepr : JValue → String
  | .str s => "\x27" ++ s ++ "\x27"
  | .num n => toString n
  | .bool true => "True"
  | .bool false => "False"
  | .null => "None"
  | .arr xs => "[" ++ String.intercalate ", " (pyReprList xs) ++ "]"
  | .obj fs => "\x7b" ++ String.intercalate ", " (pyReprFields fs) ++ "\x7d"

def pyReprList : List JValue → List String
  | [] => []
  | v :: rest => pyRepr v :: pyReprList rest

def pyReprFields : List (String × JValue) → List String
  | [] => []
  | (k, v) :: rest => ("\x27" ++ k ++ "\x27: " ++ pyRepr v) :: pyReprFields rest

end

/-- Python str() of a JSON value, as interpolated by f-strings: strings are
rendered raw, every other value as its repr. -/
def pyStr : JValue → String
  | .str s => s
  | v => pyRepr v

/-- First-match lookup in an association list, the access path for a Python
dict key (keys of a real dict are unique, so first match is the match). -/
def lookupField : List (String × JValue) → String → Option JValue
  | [], _ => none
  | (k, v) :: rest, key => if k == key then some v else lookupField rest key

/-- Python dict assignment d[k] = v: overwrite in place if the key exists,
otherwise append, preserving insertion order of keys. -/
def dictInsert (d : List (String × JValue)) (k : String) (v : JValue) :
    List (String × JValue) :=
  if d.any (fun p => p.1 == k) then
    d.map (fun p => if p.1 == k then (k, v) else p)
  else d ++ [(k, v)]

/-- Whether pat is an initial segment of l. -/
def isInitialSeg : List Char → List Char → Bool
  | [], _ => true
  | _ :: _, [] => false
  | c :: cs, d :: ds => c == d && isInitialSeg cs ds

/-- Whether pat occurs as a contiguous run of l. -/
def containsSub (pat : List Char) : List Char → Bool
  | [] => isInitialSeg pat []
  | l@(_ :: rest) => isInitialSeg pat l || containsSub pat rest

/-- Python substring test pat in s. -/
def strContains (s pat : String) : Bool :=
  containsSub pat.data s.data

/-- Python s.endswith(suffix): the final characters of s equal suffix. -/
def pyEndsWith (s suffix : String) : Bool :=
  suffix.data == s.data.drop (s.data.length - suffix.data.length)

/-- The Python membership test key in container, for the container shapes a
parsed JSON value can take: dicts test key presence, lists test membership
(only a JSON string can equal a string key), strings test substrings, and
every other shape raises TypeError. -/
def pyIn (key : String) (container : JValue) : Except String Bool :=
  match container with
  | .obj fields => .ok (fields.any (fun p => p.1 == key))
  | .arr xs => .ok (xs.any (fun v => match v with | .str s => s == key | _ => false))
  | .str s => .ok (strContains s key)
  | _ => .error "TypeError: argument is not iterable"

/-- Python subscription container[key] for a string key: dict lookup
(KeyError when absent); every other shape raises TypeError. -/
def pyGetItem (container : JValue) (key : String) : Except String JValue :=
  match container with
  | .obj fields =>
    match lookupField fields key with
    | some v => .ok v
    | none => .error "KeyError"
  | _ => .error "TypeError: not subscriptable by a string"

/-- Python container.items(): only dicts have it. -/
def pyItems : JValue → Except String (List (String × JValue))
  | .obj fields => .ok fields
  | _ => .error "AttributeError: no attribute items"

/-- Python for-loop iteration over a parsed JSON value: lists iterate their
elements, dicts their keys, strings their characters; scalars raise. -/
def pyIterate : JValue → Except String (List JValue)
  | .arr xs => .ok xs
  | .obj fields => .ok (fields.map (fun p => JValue.str p.1))
  | .str s => .ok (s.data.map (fun c => JValue.str (String.mk [c])))
  | _ => .error "TypeError: not iterable"

/-- Python falsiness of a JSON value, as tested by if not resource_data. -/
def pyFalsy : JValue → Bool
  | .null => true
  | .bool false => true
  | .num 0 => true
  | .str "" => true
  | .arr [] => true
  | .obj [] => true
  | _ => false

/-- Splitting a character list at every occurrence of a separator character,
with the semantics of Python str.split for a one-character separator: the
result is always nonempty and empty segments are kept. -/
def splitOnChar (c : Char) : List Char → List (List Char)
  | [] => [[]]
  | x :: xs =>
    match splitOnChar c xs with
    | [] => [[]]
    | s :: ss => if x = c then [] :: s :: ss else (x :: s) :: ss

/-- Joining character lists with a separator character, the semantics of
Python str.join for a one-character separator. -/
def joinChar (c : Char) : List (List Char) → List Char
  | [] => []
  | [s] => s
  | s :: ss => s ++ c :: joinChar c ss

/-- Python s.split(sep) for a one-character separator. -/
def pySplit (c : Char) (s : String) : List String :=
  (splitOnChar c s.data).map String.mk

/-- Python sep.join(parts) for a one-character separator. -/
def pyJoin (c : Char) (parts : List String) : String :=
  String.mk (joinChar c (parts.map String.data))

/-- The expression str(uri).split("#")[1], as applied to URIs built by
create_uri; such URIs always contain the # that ends the namespace prefix,
so index 1 exists (the model returns "" in the unreachable short case). -/
def pySplitHash1 (s : String) : String :=
  match pySplit '#' s with
  | _ :: seg :: _ => seg
  | _ => ""

/-- An rdflib triple: subject, predicate, object, each a URI string. -/
abbrev Triple := String × String × String

/-- rdflib Graph.add: a graph is a set of triples, so adding an already
present triple is a no-op; insertion order is kept for the list model. -/
def graphAdd (g : List Triple) (t : Triple) : List Triple :=
  if t ∈ g then g else g ++ [t]

/-- str(self.lla), the fixed ontology namespace prefix. -/
def llaNS : String := "http://lla.com/ontology#"

/-- self.lla[field]: a term in the lla namespace. -/
def llaTerm (field : String) : String := llaNS ++ field

/-- str(RDF.type). -/
def rdfType : String := "http://www.w3.org/1999/02/22-rdf-syntax-ns#type"

/-- create_uri: the URI of a resource, the namespace prefix followed by the
canonical id formed from kind, namespace and name. -/
def create_uri (kind nspace name : String) : String :=
  llaNS ++ kind ++ "_" ++ nspace ++ "_" ++ name

/-- One entry of the file-backed input directory: a file that is valid JSON
parsing to a value, or a file whose contents json.load rejects.  The parse
outcome is the boundary model of the external filesystem and json module. -/
inductive FileData where
  | invalid
  | value (v : JValue)

/-- One entry of the relationships list built by add_reference_relationship
(from and to are reserved words in Lean, hence the trailing underscores). -/
structure RelEntry where
  from_ : String
  to_ : String
  label : String
  from_uri : String
  to_uri : String
  deriving DecidableEq

/-- The state of one NetworkDataProcessor instance: the modelled input
directory listing (read-only for a run), the rdflib graph, the relationships
list, and the resource cache (a Python dict as an ordered association
list). -/
structure Proc where
  fs : List (String × FileData)
  g : List Triple
  relationships : List RelEntry
  resource_cache : List (String × JValue)

/-- The well-formedness guard of add_reference_relationship:
isinstance(ref_data, dict) and all of kind, namespace, name present. -/
def wellFormedRef : JValue → Bool
  | .obj fields =>
    fields.any (fun p => p.1 == "kind")
      && fields.any (fun p => p.1 == "namespace")
      && fields.any (fun p => p.1 == "name")
  | _ => false

/-- Dict access ref_data[key] inside add_reference_relationship; the guard
has already established that ref_data is a dict holding the key, so the
default is unreachable there. -/
def objGetD (v : JValue) (key : String) : JValue :=
  match v with
  | .obj fields => (lookupField fields key).getD .null
  | _ => .null

/-- The object URI built by add_reference_relationship from a well-formed
reference payload. -/
def refObjUri (ref_data : JValue) : String :=
  create_uri (pyStr (objGetD ref_data "kind"))
    (pyStr (objGetD ref_data "namespace"))
    (pyStr (objGetD ref_data "name"))

/-- The relationship record appended by add_reference_relationship. -/
def mkEdge (subject_uri ref_field : String) (ref_data : JValue) : RelEntry :=
  { from_ := pySplitHash1 subject_uri
    to_ := pySplitHash1 (refObjUri ref_data)
    label := ref_field
    from_uri := subject_uri
    to_uri := refObjUri ref_data }

/-- add_reference_relationship: on a well-formed payload, assert the triple
in the graph and append one relationship record; otherwise do nothing. -/
def add_reference_relationship (st : Proc) (subject_uri ref_field : String)
    (ref_data : JValue) : Proc :=
  if wellFormedRef ref_data then
    { st with
      g := graphAdd st.g (subject_uri, llaTerm ref_field, refObjUri ref_data)
      relationships := st.relationships ++ [mkEdge subject_uri ref_field ref_data] }
  else st

/-- The body of the loop of process_spec for one spec entry: a key ending in
Ref goes to add_reference_relationship; otherwise (elif) a mapping value has
its nested keys scanned for the Ref suffix. -/
def processField (st : Proc) (resource_uri : String) (kv : String × JValue) : Proc :=
  if pyEndsWith kv.1 "Ref" then
    add_reference_relationship st resource_uri kv.1 kv.2
  else
    match kv.2 with
    | .obj nested =>
      nested.foldl (fun s nkv =>
        if pyEndsWith nkv.1 "Ref" then
          add_reference_relationship s resource_uri (kv.1 ++ "_" ++ nkv.1) nkv.2
        else s) st
    | _ => st

/-- process_spec: walk the spec payload at the two fixed depths; the third
(unused in the source as well) resource argument is kept for fidelity. -/
def process_spec (st : Proc) (resource_uri : String) (spec_data : JValue)
    (_resource : JValue) : Proc :=
  match spec_data with
  | .obj fields => fields.foldl (fun s kv => processField s resource_uri kv) st
  | _ => st

/-- The type-fact assertion performed for each resource inside
generate_ontology_and_vectors: g.add((resource_uri, RDF.type, lla[kind])). -/
def assert_type (st : Proc) (resource_uri kind : String) : Proc :=
  { st with g := graphAdd st.g (resource_uri, rdfType, llaTerm kind) }

/-- First-match lookup of a file name in the modelled directory. -/
def lookupFile : List (String × FileData) → String → Option FileData
  | [], _ => none
  | (n, d) :: rest, fname => if n == fname then some d else lookupFile rest fname

/-- load_json_file, value part: returns the empty list when the path does
not exist, the parsed value when the file is valid JSON, and re-raises the
json.load error otherwise. -/
def load_json_value (fs : List (String × FileData)) (filename : String) :
    Except String JValue :=
  match lookupFile fs filename with
  | none => .ok (.arr [])
  | some .invalid => .error "json.decoder.JSONDecodeError"
  | some (.value v) => .ok v

/-- load_json_file as a method: it reads self only for the input directory
and leaves the instance state untouched. -/
def load_json_file (st : Proc) (filename : String) : Proc × Except String JValue :=
  (st, load_json_value st.fs filename)

/-- The guard all(k in resource for k in [kind, namespace, name]) of
get_resource_data, with the generator short-circuit order. -/
def allKeysIn (resource : JValue) : Except String Bool := do
  let b1 ← pyIn "kind" resource
  if b1 then do
    let b2 ← pyIn "namespace" resource
    if b2 then pyIn "name" resource
    else pure false
  else pure false

/-- The f-string building current_id inside get_resource_data. -/
def computeId (resource : JValue) : Except String String := do
  let k ← pyGetItem resource "kind"
  let n ← pyGetItem resource "namespace"
  let m ← pyGetItem resource "name"
  pure (pyStr k ++ "_" ++ pyStr n ++ "_" ++ pyStr m)

/-- The inner loop of get_resource_data over the records of one file: cache
every record that passes the key guard, return it at once when its id is the
requested one. -/
def scanResources (resource_id : String) :
    List (String × JValue) → List JValue →
    Except String (List (String × JValue) × Option JValue)
  | cache, [] => .ok (cache, none)
  | cache, r :: rest =>
    match allKeysIn r with
    | .error e => .error e
    | .ok false => scanResources resource_id cache rest
    | .ok true =>
      match computeId r with
      | .error e => .error e
      | .ok current_id =>
        if current_id == resource_id then
          .ok (dictInsert cache current_id r, some r)
        else scanResources resource_id (dictInsert cache current_id r) rest

/-- The outer loop of get_resource_data over os.listdir of the input
directory, restricted to .json names; the returned string list is the trace
of the files actually opened by load_json_file during this call, the
explicit embedding of the read effect. -/
def scanFiles (fs : List (String × FileData)) (resource_id : String) :
    List (String × JValue) → List (String × FileData) →
    Except String (List (String × JValue) × Option JValue × List String)
  | cache, [] => .ok (cache, none, [])
  | cache, (fname, _) :: rest =>
    if pyEndsWith fname ".json" then
      match load_json_value fs fname with
      | .error e => .error e
      | .ok v =>
        match pyIterate v with
        | .error e => .error e
        | .ok items =>
          match scanResources resource_id cache items with
          | .error e => .error e
          | .ok (cache1, some r) => .ok (cache1, some r, [fname])
          | .ok (cache1, none) =>
            match scanFiles fs resource_id cache1 rest with
            | .error e => .error e
            | .ok (cache2, res2, opened) => .ok (cache2, res2, fname :: opened)
    else scanFiles fs resource_id cache rest

/-- get_resource_data: answer from the cache when possible, otherwise scan
the directory listing, populating the cache along the way; the third
component records which files this call opened. -/
def get_resource_data (st : Proc) (resource_id : String) :
    Except String (Proc × Option JValue × List String) :=
  match lookupField st.resource_cache resource_id with
  | some r => .ok (st, some r, [])
  | none =>
    match scanFiles st.fs resource_id st.resource_cache st.fs with
    | .error e => .error e
    | .ok (cache1, res, opened) =>
      .ok ({ st with resource_cache := cache1 }, res, opened)

/-- The string repeated indentation prefix of format_dict_value. -/
def indentRepeat (n : Nat) : String :=
  String.mk (List.replicate (2 * n) ' ')

mutual

/-- format_dict_value: dicts and nonempty lists are rendered on their own
indented lines, every other value through str(). -/
def format_dict_value : JValue → Nat → String
  | .obj fields, indent =>
    "\n" ++ String.intercalate "\n" (formatFields fields indent)
  | .arr [], _ => "[]"
  | .arr (x :: xs), indent =>
    "\n" ++ String.intercalate "\n" (formatItems (x :: xs) indent)
  | .str s, _ => pyStr (.str s)
  | .num n, _ => pyStr (.num n)
  | .bool b, _ => pyStr (.bool b)
  | .null, _ => pyStr .null

def formatFields : List (String × JValue) → Nat → List String
  | [], _ => []
  | (k, v) :: rest, indent =>
    (indentRepeat (indent + 1) ++ k ++ ": " ++ format_dict_value v (indent + 1))
      :: formatFields rest indent

def formatItems : List JValue → Nat → List String
  | [], _ => []
  | v :: rest, indent =>
    (indentRepeat (indent + 1) ++ "- " ++ format_dict_value v (indent + 1))
      :: formatItems rest indent

end

/-- The relationship listing of generate_resource_context_enhanced: one line
per relationship touching the resource, outbound lines taking precedence on
self-loops, in relationship order. -/
def relatedLines (resource_id : String) : List RelEntry → List String
  | [] => []
  | rel :: rest =>
    if rel.from_ == resource_id then
      ("- Has " ++ rel.label ++ " relationship with " ++ rel.to_)
        :: relatedLines resource_id rest
    else if rel.to_ == resource_id then
      ("- Is " ++ rel.label ++ " of " ++ rel.from_)
        :: relatedLines resource_id rest
    else relatedLines resource_id rest

/-- generate_resource_context_enhanced: resolve the identity through the
store; absent (or falsy) data yields the not-found sentence, otherwise the
formatted description, metadata, spec and relationship sections. -/
def generate_resource_context_enhanced (st : Proc) (resource_id : String) :
    Except String (Proc × String) := do
  let (st1, rd, _) ← get_resource_data st resource_id
  match rd with
  | none => .ok (st1, "Resource " ++ resource_id ++ " information not found")
  | some resource_data =>
    if pyFalsy resource_data then
      .ok (st1, "Resource " ++ resource_id ++ " information not found")
    else do
      let kindV ← pyGetItem resource_data "kind"
      let nameV ← pyGetItem resource_data "name"
      let nsV ← pyGetItem resource_data "namespace"
      let base := ["Resource Description:",
        "Type: " ++ pyStr kindV,
        "Name: " ++ pyStr nameV,
        "Namespace: " ++ pyStr nsV]
      let hasMeta ← pyIn "metadata" resource_data
      let metaPart ←
        if hasMeta then do
          let mv ← pyGetItem resource_data "metadata"
          let items ← pyItems mv
          pure ("\nMetadata Information:"
            :: items.map (fun kv => kv.1 ++ ":" ++ format_dict_value kv.2 0))
        else pure []
      let hasSpec ← pyIn "spec" resource_data
      let specPart ←
        if hasSpec then do
          let sv ← pyGetItem resource_data "spec"
          let items ← pyItems sv
          pure ("\nResource Specification:"
            :: items.map (fun kv => kv.1 ++ ":" ++ format_dict_value kv.2 0))
        else pure []
      let rl := relatedLines resource_id st1.relationships
      let relPart := if rl.isEmpty then [] else "\nResource Relationships:" :: rl
      .ok (st1, String.intercalate "\n" (base ++ metaPart ++ specPart ++ relPart))

/-- The source- and target-description dict of
generate_vector_ingestion_data: the identity fields are recovered by
splitting the canonical id on underscores, not by consulting the store (the
nspace field holds the namespace key; namespace is reserved in Lean). -/
structure ResourceDesc where
  resource_id : String
  kind : String
  nspace : String
  name : String
  deriving DecidableEq

/-- create_resource_description: parts[0], parts[1] and the underscore-join
of the remainder of resource_id.split(an underscore); on ids with fewer than
two separators Python would raise IndexError, the model returns "" there. -/
def create_resource_description (resource_id : String) : ResourceDesc :=
  let parts := pySplit '_' resource_id
  { resource_id := resource_id
    kind := (parts.get? 0).getD ""
    nspace := (parts.get? 1).getD ""
    name := pyJoin '_' (parts.drop 2) }

/-- The metadata dict of a vector document, in its two shapes. -/
inductive DocMeta where
  | relMeta (relationship_type : String) (source target : ResourceDesc)
      (source_uri target_uri timestamp : String)
  | resMeta (resource_type nspace name uri timestamp : String)
  deriving DecidableEq

/-- One vector-ingestion document. -/
structure VectorDoc where
  id : String
  type : String
  content : String
  metadata : DocMeta
  deriving DecidableEq

/-- The relationship document built for one edge; the timestamp argument is
the explicit embedding of datetime.now().isoformat(). -/
def relationship_doc (now : String) (rel : RelEntry) : VectorDoc :=
  let source := create_resource_description rel.from_
  let target := create_resource_description rel.to_
  { id := "rel_" ++ rel.from_ ++ "_" ++ rel.to_
    type := "relationship"
    content := "The " ++ source.kind ++ " resource \x27" ++ source.name ++
      "\x27 in namespace \x27" ++ source.nspace ++ "\x27 has a " ++ rel.label ++
      " relationship with the " ++ target.kind ++ " resource \x27" ++
      target.name ++ "\x27 in namespace \x27" ++ target.nspace ++ "\x27."
    metadata := .relMeta rel.label source target rel.from_uri rel.to_uri now }

/-- The resource document built for one endpoint identity. -/
def resource_doc (now rid content uri : String) : VectorDoc :=
  let desc := create_resource_description rid
  { id := rid
    type := "resource"
    content := content
    metadata := .resMeta desc.kind desc.nspace desc.name uri now }

/-- The per-endpoint step of generate_vector_ingestion_data: skip an already
processed identity, otherwise synthesize its context (through the store) and
append its resource document, marking it processed. -/
def processEndpoint (now : String) (st : Proc) (processed : List String)
    (acc : List VectorDoc) (rid uri : String) :
    Except String (Proc × List String × List VectorDoc) :=
  if rid ∈ processed then .ok (st, processed, acc)
  else
    match generate_resource_context_enhanced st rid with
    | .error e => .error e
    | .ok (st1, c) =>
      .ok (st1, processed ++ [rid], acc ++ [resource_doc now rid c uri])

/-- The loop of generate_vector_ingestion_data over the relationships list:
one relationship document per edge, then the from endpoint, then the to
endpoint against the updated seen set. -/
def genLoop (now : String) (st : Proc) (processed : List String)
    (acc : List VectorDoc) :
    List RelEntry → Except String (Proc × List String × List VectorDoc)
  | [] => .ok (st, processed, acc)
  | rel :: rest =>
    match processEndpoint now st processed (acc ++ [relationship_doc now rel])
        rel.from_ rel.from_uri with
    | .error e => .error e
    | .ok (st1, p1, a1) =>
      match processEndpoint now st1 p1 a1 rel.to_ rel.to_uri with
      | .error e => .error e
      | .ok (st2, p2, a2) => genLoop now st2 p2 a2 rest

/-- generate_vector_ingestion_data: run the loop over self.relationships
with an empty seen set and document list. -/
def generate_vector_ingestion_data (st : Proc) (now : String) :
    Except String (Proc × List VectorDoc) :=
  match genLoop now st [] [] st.relationships with
  | .error e => .error e
  | .ok (st1, _, docs) => .ok (st1, docs)

theorem string_data_append (a b : String) : (a ++ b).data = a.data ++ b.data := rfl

theorem string_mk_data (s : String) : String.mk s.data = s := rfl

theorem splitOnChar_ne_nil (c : Char) : ∀ l, splitOnChar c l ≠ []
  | [] => by simp [splitOnChar]
  | x :: xs => by
    unfold splitOnChar
    cases h : splitOnChar c xs with
    | nil => simp
    | cons s ss => by_cases hx : x = c <;> simp [hx]

theorem splitOnChar_not_mem (c : Char) :
    ∀ l, c ∉ l → splitOnChar c l = [l]
  | [], _ => rfl
  | x :: xs, h => by
    have hx : ¬x = c := fun he => h (he ▸ List.mem_cons_self x xs)
    have ih := splitOnChar_not_mem c xs (fun hm => h (List.mem_cons_of_mem x hm))
    simp [splitOnChar, ih, hx]

theorem splitOnChar_append (c : Char) :
    ∀ p r, c ∉ p → splitOnChar c (p ++ c :: r) = p :: splitOnChar c r
  | [], r, _ => by
    cases h : splitOnChar c r with
    | nil => exact absurd h (splitOnChar_ne_nil c r)
    | cons s ss => simp [splitOnChar, h]
  | a :: p, r, hmem => by
    have ha : ¬a = c := fun he => hmem (he ▸ List.mem_cons_self a p)
    have ih := splitOnChar_append c p r (fun hm => hmem (List.mem_cons_of_mem a hm))
    simp only [List.cons_append, splitOnChar, List.append_eq]
    rw [ih]
    simp [ha]

theorem joinChar_splitOnChar (c : Char) : ∀ l, joinChar c (splitOnChar c l) = l
  | [] => rfl
  | x :: xs => by
    have ih := joinChar_splitOnChar c xs
    cases h : splitOnChar c xs with
    | nil => exact absurd h (splitOnChar_ne_nil c xs)
    | cons s ss =>
      rw [h] at ih
      by_cases hx : x = c
      · subst hx
        simpa [splitOnChar, h, joinChar] using ih
      · cases ss with
        | nil => simpa [splitOnChar, h, hx, joinChar] using ih
        | cons s2 ss2 =>
          simp only [splitOnChar, h, hx, if_false, joinChar] at ih ⊢
          simpa using ih

theorem splitUnique (c : Char) :
    ∀ p1 s1 p2 s2, c ∉ p1 → c ∉ p2 →
      p1 ++ c :: s1 = p2 ++ c :: s2 → p1 = p2 ∧ s1 = s2
  | [], s1, [], s2, _, _, h => by simpa using h
  | [], s1, b :: p2, s2, _, h2, h => by
    simp only [List.nil_append, List.cons_append, List.cons.injEq] at h
    exact absurd (h.1 ▸ List.mem_cons_self b p2) h2
  | a :: p1, s1, [], s2, h1, _, h => by
    simp only [List.nil_append, List.cons_append, List.cons.injEq] at h
    exact absurd (h.1.symm ▸ List.mem_cons_self a p1) h1
  | a :: p1, s1, b :: p2, s2, h1, h2, h => by
    simp only [List.cons_append, List.cons.injEq] at h
    have := splitUnique c p1 s1 p2 s2
      (fun hm => h1 (List.mem_cons_of_mem a hm))
      (fun hm => h2 (List.mem_cons_of_mem b hm)) h.2
    exact ⟨by rw [h.1, this.1], this.2⟩

theorem canonical_id_data (k n m : String) :
    (k ++ "_" ++ n ++ "_" ++ m).data =
      k.data ++ '_' :: (n.data ++ '_' :: m.data) := by
  have hu : "_".data = ['_'] := rfl
  simp [string_data_append, hu, List.append_assoc]

theorem create_uri_data (k n m : String) :
    (create_uri k n m).data =
      "http://lla.com/ontology".data ++
        '#' :: (k.data ++ '_' :: (n.data ++ '_' :: m.data)) := by
  have hlla : llaNS.data = "http://lla.com/ontology".data ++ ['#'] := by decide
  have hu : "_".data = ['_'] := rfl
  simp [create_uri, string_data_append, hlla, hu, List.append_assoc]

theorem pySplitHash1_create_uri (k n m : String)
    (hk : '#' ∉ k.data) (hn : '#' ∉ n.data) (hm : '#' ∉ m.data) :
    pySplitHash1 (create_uri k n m) = k ++ "_" ++ n ++ "_" ++ m := by
  have hpre : '#' ∉ "http://lla.com/ontology".data := by decide
  have hrest : '#' ∉ k.data ++ '_' :: (n.data ++ '_' :: m.data) := by
    intro hmem
    rcases List.mem_append.1 hmem with h | h
    · exact hk h
    · rcases List.mem_cons.1 h with h | h
      · exact absurd h (by decide)
      · rcases List.mem_append.1 h with h | h
        · exact hn h
        · rcases List.mem_cons.1 h with h | h
          · exact absurd h (by decide)
          · exact hm h
  unfold pySplitHash1 pySplit
  rw [create_uri_data,
    splitOnChar_append '#' _ _ hpre,
    splitOnChar_not_mem '#' _ hrest]
  simp only [List.map_cons, List.map_nil]
  rw [← canonical_id_data, string_mk_data]

theorem create_uri_inj (k1 n1 m1 k2 n2 m2 : String)
    (hk1 : '_' ∉ k1.data) (hn1 : '_' ∉ n1.data)
    (hk2 : '_' ∉ k2.data) (hn2 : '_' ∉ n2.data)
    (h : create_uri k1 n1 m1 = create_uri k2 n2 m2) :
    k1 = k2 ∧ n1 = n2 ∧ m1 = m2 := by
  have hd := congrArg String.data h
  rw [create_uri_data, create_uri_data] at hd
  have hd1 := List.append_cancel_left hd
  have hd2 : k1.data ++ '_' :: (n1.data ++ '_' :: m1.data) =
      k2.data ++ '_' :: (n2.data ++ '_' :: m2.data) := by
    simpa using hd1
  have h1 := splitUnique '_' _ _ _ _ hk1 hk2 hd2
  have h2 := splitUnique '_' _ _ _ _ hn1 hn2 h1.2
  refine ⟨?_, ?_, ?_⟩
  · rw [← string_mk_data k1, h1.1, string_mk_data]
  · rw [← string_mk_data n1, h2.1, string_mk_data]
  · rw [← string_mk_data m1, h2.2, string_mk_data]

theorem create_resource_description_eq (k n m : String)
    (hk : '_' ∉ k.data) (hn : '_' ∉ n.data) :
    create_resource_description (k ++ "_" ++ n ++ "_" ++ m) =
      { resource_id := k ++ "_" ++ n ++ "_" ++ m
        kind := k
        nspace := n
        name := m } := by
  have hname : pyJoin '_' ((splitOnChar '_' m.data).map String.mk) = m := by
    unfold pyJoin
    rw [List.map_map]
    have hcomp : (String.data ∘ String.mk) = id := rfl
    rw [hcomp, List.map_id, joinChar_splitOnChar, string_mk_data]
  unfold create_resource_description pySplit
  rw [canonical_id_data, splitOnChar_append '_' _ _ hk,
    splitOnChar_append '_' _ _ hn]
  simp only [List.map_cons, List.get?, Option.getD_some, List.drop_succ_cons,
    List.drop_zero, string_mk_data, hname]

/-- The edges contributed by one spec entry, as the processing loop emits
them: a Ref-suffixed key contributes its own well-formed payload, any other
mapping-valued key contributes its well-formed Ref-suffixed nested keys. -/
def fieldEdges (resource_uri : String) (kv : String × JValue) : List RelEntry :=
  if pyEndsWith kv.1 "Ref" then
    if wellFormedRef kv.2 then [mkEdge resource_uri kv.1 kv.2] else []
  else
    match kv.2 with
    | .obj nested =>
      (nested.filter (fun p => pyEndsWith p.1 "Ref" && wellFormedRef p.2)).map
        (fun p => mkEdge resource_uri (kv.1 ++ "_" ++ p.1) p.2)
    | _ => []

/-- The count N of the claims: top-level keys of spec ending in Ref whose
values are well-formed reference mappings. -/
def countTopRefs (fields : List (String × JValue)) : Nat :=
  (fields.filter (fun kv => pyEndsWith kv.1 "Ref" && wellFormedRef kv.2)).length

/-- The count M of claim C1 as stated: well-formed Ref-suffixed keys one
level inside every mapping-valued field of spec. -/
def countNestedRefsAll (fields : List (String × JValue)) : Nat :=
  (fields.flatMap (fun kv =>
    match kv.2 with
    | .obj nested =>
      nested.filter (fun p => pyEndsWith p.1 "Ref" && wellFormedRef p.2)
    | _ => [])).length

/-- The corrected second-level count: nested Ref-suffixed keys are only
reached inside mapping-valued fields whose own key does not end in Ref. -/
def countNestedRefsNonRef (fields : List (String × JValue)) : Nat :=
  (fields.flatMap (fun kv =>
    if pyEndsWith kv.1 "Ref" then []
    else
      match kv.2 with
      | .obj nested =>
        nested.filter (fun p => pyEndsWith p.1 "Ref" && wellFormedRef p.2)
      | _ => [])).length

theorem add_ref_relationships (st : Proc) (u l : String) (v : JValue) :
    (add_reference_relationship st u l v).relationships =
      st.relationships ++ (if wellFormedRef v then [mkEdge u l v] else []) := by
  by_cases h : wellFormedRef v <;> simp [add_reference_relationship, h]

theorem add_ref_ill_formed (st : Proc) (u l : String) (v : JValue)
    (h : ¬wellFormedRef v) : add_reference_relationship st u l v = st := by
  simp [add_reference_relationship, h]

theorem nestedFold_relationships (uri key : String) :
    ∀ (nested : List (String × JValue)) (st : Proc),
      (nested.foldl (fun s nkv =>
        if pyEndsWith nkv.1 "Ref" then
          add_reference_relationship s uri (key ++ "_" ++ nkv.1) nkv.2
        else s) st).relationships =
      st.relationships ++
        ((nested.filter (fun p => pyEndsWith p.1 "Ref" && wellFormedRef p.2)).map
          (fun p => mkEdge uri (key ++ "_" ++ p.1) p.2))
  | [], st => by simp
  | (nk, nv) :: rest, st => by
    have ih := nestedFold_relationships uri key rest
    by_cases he : pyEndsWith nk "Ref"
    · by_cases hw : wellFormedRef nv
      · simp only [List.foldl_cons, he, if_true, List.filter_cons,
          Bool.and_eq_true, he, hw, and_self, List.map_cons]
        rw [ih, add_ref_relationships]
        simp [hw]
      · simp only [List.foldl_cons, he, if_true, List.filter_cons]
        rw [ih, add_ref_ill_formed _ _ _ _ hw]
        simp [he, hw]
    · simp only [List.foldl_cons, he, if_false, List.filter_cons]
      rw [ih]
      simp [he]

theorem processField_relationships (uri : String) (kv : String × JValue)
    (st : Proc) :
    (processField st uri kv).relationships =
      st.relationships ++ fieldEdges uri kv := by
  unfold processField fieldEdges
  by_cases he : pyEndsWith kv.1 "Ref"
  · simp only [he, if_true]
    rw [add_ref_relationships]
  · simp only [he, if_false]
    match h2 : kv.2 with
    | .obj nested => exact nestedFold_relationships uri kv.1 nested st
    | .str s => simp
    | .num n => simp
    | .bool b => simp
    | .null => simp
    | .arr xs => simp

theorem process_spec_relationships (uri : String) (res : JValue) :
    ∀ (fields : List (String × JValue)) (st : Proc),
      (process_spec st uri (.obj fields) res).relationships =
        st.relationships ++ fields.flatMap (fieldEdges uri)
  | [], st => by simp [process_spec]
  | kv :: rest, st => by
    have ih := process_spec_relationships uri res rest (processField st uri kv)
    simp only [process_spec] at ih ⊢
    rw [List.foldl_cons, ih, processField_relationships, List.flatMap_cons,
      List.append_assoc]

theorem fieldEdges_length (uri : String) (kv : String × JValue) :
    (fieldEdges uri kv).length =
      (if pyEndsWith kv.1 "Ref" && wellFormedRef kv.2 then 1 else 0) +
      (if pyEndsWith kv.1 "Ref" then 0
       else
         match kv.2 with
         | .obj nested =>
           (nested.filter (fun p => pyEndsWith p.1 "Ref" && wellFormedRef p.2)).length
         | _ => 0) := by
  unfold fieldEdges
  by_cases he : pyEndsWith kv.1 "Ref"
  · by_cases hw : wellFormedRef kv.2 <;> simp [he, hw]
  · match h2 : kv.2 with
    | .obj nested => simp [he]
    | .str s => simp [he]
    | .num n => simp [he]
    | .bool b => simp [he]
    | .null => simp [he]
    | .arr xs => simp [he]

theorem flatMap_fieldEdges_length (uri : String) :
    ∀ fields : List (String × JValue),
      (fields.flatMap (fieldEdges uri)).length =
        countTopRefs fields + countNestedRefsNonRef fields
  | [] => rfl
  | kv :: rest => by
    have ih := flatMap_fieldEdges_length uri rest
    unfold countTopRefs countNestedRefsNonRef at ih ⊢
    rw [List.flatMap_cons, List.length_append, ih, fieldEdges_length,
      List.filter_cons, List.flatMap_cons, List.length_append]
    by_cases he : pyEndsWith kv.1 "Ref"
    · by_cases hw : wellFormedRef kv.2 <;> simp [he, hw] <;> omega
    · match h2 : kv.2 with
      | .obj nested =>
        simp only [he, Bool.false_and, Bool.false_eq_true, if_false]
        omega
      | .str s => simp [he]
      | .num n => simp [he]
      | .bool b => simp [he]
      | .null => simp [he]
      | .arr xs => simp [he]

theorem fieldEdges_from (uri : String) (kv : String × JValue) (e : RelEntry)
    (he : e ∈ fieldEdges uri kv) : e.from_ = pySplitHash1 uri := by
  unfold fieldEdges at he
  by_cases h1 : pyEndsWith kv.1 "Ref"
  · simp only [h1, if_true] at he
    by_cases hw : wellFormedRef kv.2
    · simp only [hw, if_true, List.mem_singleton] at he
      rw [he]
      rfl
    · simp [hw] at he
  · simp only [h1, if_false] at he
    match h2 : kv.2 with
    | .obj nested =>
      rw [h2] at he
      rcases List.mem_map.1 he with ⟨p, _, hp⟩
      rw [← hp]
      rfl
    | .str s => rw [h2] at he; simp at he
    | .num n => rw [h2] at he; simp at he
    | .bool b => rw [h2] at he; simp at he
    | .null => rw [h2] at he; simp at he
    | .arr xs => rw [h2] at he; simp at he

theorem graphAdd_idem (g : List Triple) (t : Triple) :
    graphAdd (graphAdd g t) t = graphAdd g t := by
  unfold graphAdd
  by_cases h : t ∈ g
  · simp [h]
  · simp [h]

theorem graphAdd_nodup (g : List Triple) (t : Triple) (h : g.Nodup) :
    (graphAdd g t).Nodup := by
  unfold graphAdd
  by_cases hm : t ∈ g
  · simpa [hm]
  · simp [hm, List.nodup_append, h]

/-- Classifier for relationship documents, the type field of the claims. -/
def isRelDoc (d : VectorDoc) : Bool := d.type == "relationship"

/-- Classifier for resource documents. -/
def isResDoc (d : VectorDoc) : Bool := d.type == "resource"

/-- The identities a single edge adds to the seen set of the synthesis
loop: the from endpoint if unseen, then the to endpoint if still unseen. -/
def addedBy (processed : List String) (rel : RelEntry) : List String :=
  (if rel.from_ ∈ processed then [] else [rel.from_]) ++
    (if rel.to_ ∈ processed ++ (if rel.from_ ∈ processed then [] else [rel.from_])
      then [] else [rel.to_])

/-- The identities first seen while walking the given edges against an
already-processed seen set, in first-occurrence order: the ids of the
resource documents the synthesis loop adds. -/
def newIds (processed : List String) : List RelEntry → List String
  | [] => []
  | rel :: rest =>
    addedBy processed rel ++ newIds (processed ++ addedBy processed rel) rest

theorem mem_append_addedBy (processed : List String) (rel : RelEntry) (x : String) :
    x ∈ processed ++ addedBy processed rel ↔
      x ∈ processed ∨ x = rel.from_ ∨ x = rel.to_ := by
  unfold addedBy
  by_cases h1 : rel.from_ ∈ processed <;>
    by_cases h2 : rel.to_ ∈ processed <;>
      by_cases h3 : rel.to_ = rel.from_ <;>
        simp [h1, h2, h3] <;> aesop

theorem nodup_addedBy (processed : List String) (rel : RelEntry)
    (h : processed.Nodup) : (processed ++ addedBy processed rel).Nodup := by
  unfold addedBy
  by_cases h1 : rel.from_ ∈ processed <;>
    by_cases h2 : rel.to_ ∈ processed <;>
      by_cases h3 : rel.to_ = rel.from_ <;>
        simp [h1, h2, h3, List.nodup_append, h] <;> aesop

theorem mem_append_newIds :
    ∀ (rest : List RelEntry) (processed : List String) (x : String),
      x ∈ processed ++ newIds processed rest ↔
        x ∈ processed ∨ ∃ r ∈ rest, r.from_ = x ∨ r.to_ = x
  | [], processed, x => by simp [newIds]
  | rel :: rest, processed, x => by
    have ih := mem_append_newIds rest (processed ++ addedBy processed rel) x
    have hstep := mem_append_addedBy processed rel x
    constructor
    · intro hx
      have hx2 : x ∈ (processed ++ addedBy processed rel) ++
          newIds (processed ++ addedBy processed rel) rest := by
        simpa [newIds, List.append_assoc] using hx
      rcases ih.1 hx2 with h | ⟨r, hr, hrx⟩
      · rcases hstep.1 h with h | h | h
        · exact Or.inl h
        · exact Or.inr ⟨rel, List.mem_cons_self rel rest, Or.inl h.symm⟩
        · exact Or.inr ⟨rel, List.mem_cons_self rel rest, Or.inr h.symm⟩
      · exact Or.inr ⟨r, List.mem_cons_of_mem rel hr, hrx⟩
    · intro hx
      have hgoal : x ∈ (processed ++ addedBy processed rel) ++
          newIds (processed ++ addedBy processed rel) rest := by
        apply ih.2
        rcases hx with h | ⟨r, hr, hrx⟩
        · exact Or.inl (hstep.2 (Or.inl h))
        · rcases List.mem_cons.1 hr with hhead | htail
          · subst hhead
            rcases hrx with hrx | hrx
            · exact Or.inl (hstep.2 (Or.inr (Or.inl hrx.symm)))
            · exact Or.inl (hstep.2 (Or.inr (Or.inr hrx.symm)))
          · exact Or.inr ⟨r, htail, hrx⟩
      simpa [newIds, List.append_assoc] using hgoal

theorem nodup_append_newIds :
    ∀ (rest : List RelEntry) (processed : List String),
      processed.Nodup → (processed ++ newIds processed rest).Nodup
  | [], processed, h => by simpa [newIds]
  | rel :: rest, processed, h => by
    have hstep := nodup_addedBy processed rel h
    have ih := nodup_append_newIds rest (processed ++ addedBy processed rel) hstep
    simpa [newIds, List.append_assoc] using ih

theorem isRelDoc_relationship_doc (now : String) (rel : RelEntry) :
    isRelDoc (relationship_doc now rel) = true := rfl

theorem isResDoc_relationship_doc (now : String) (rel : RelEntry) :
    isResDoc (relationship_doc now rel) = false := rfl

theorem isRelDoc_resource_doc (now rid c uri : String) :
    isRelDoc (resource_doc now rid c uri) = false := rfl

theorem isResDoc_resource_doc (now rid c uri : String) :
    isResDoc (resource_doc now rid c uri) = true := rfl

theorem resource_doc_id (now rid c uri : String) :
    (resource_doc now rid c uri).id = rid := rfl

theorem processEndpoint_spec (now : String) (st : Proc)
    (processed : List String) (acc : List VectorDoc) (rid uri : String)
    (st1 : Proc) (p1 : List String) (a1 : List VectorDoc)
    (h : processEndpoint now st processed acc rid uri = .ok (st1, p1, a1)) :
    p1 = processed ++ (if rid ∈ processed then [] else [rid]) ∧
    a1.filter isRelDoc = acc.filter isRelDoc ∧
    (a1.filter isResDoc).map VectorDoc.id =
      (acc.filter isResDoc).map VectorDoc.id ++
        (if rid ∈ processed then [] else [rid]) := by
  unfold processEndpoint at h
  by_cases hmem : rid ∈ processed
  · simp only [hmem, if_true, Except.ok.injEq, Prod.mk.injEq] at h
    obtain ⟨-, h2, h3⟩ := h
    subst h2
    subst h3
    simp [hmem]
  · simp only [hmem, if_false] at h
    cases hgen : generate_resource_context_enhanced st rid with
    | error e =>
      rw [hgen] at h
      cases h
    | ok pr =>
      obtain ⟨st2, c⟩ := pr
      rw [hgen] at h
      simp only [Except.ok.injEq, Prod.mk.injEq] at h
      obtain ⟨-, h2, h3⟩ := h
      subst h2
      subst h3
      refine ⟨by simp [hmem], ?_, ?_⟩
      · simp [List.filter_append, isRelDoc_resource_doc]
      · simp [List.filter_append, isResDoc_resource_doc, resource_doc_id, hmem]

theorem genLoop_spec (now : String) :
    ∀ (rest : List RelEntry) (st : Proc) (processed : List String)
      (acc : List VectorDoc) (st' : Proc) (p' : List String)
      (a' : List VectorDoc),
      genLoop now st processed acc rest = .ok (st', p', a') →
      a'.filter isRelDoc =
        acc.filter isRelDoc ++ rest.map (relationship_doc now) ∧
      (a'.filter isResDoc).map VectorDoc.id =
        (acc.filter isResDoc).map VectorDoc.id ++ newIds processed rest ∧
      p' = processed ++ newIds processed rest
  | [], st, processed, acc, st', p', a', h => by
    simp only [genLoop, Except.ok.injEq, Prod.mk.injEq] at h
    obtain ⟨-, h2, h3⟩ := h
    subst h2
    subst h3
    simp [newIds]
  | rel :: rest, st, processed, acc, st', p', a', h => by
    simp only [genLoop] at h
    split at h
    · cases h
    · next st1 p1 a1 h1 =>
      split at h
      · cases h
      · next st2 p2 a2 h2 =>
        have hs1 := processEndpoint_spec now st processed
          (acc ++ [relationship_doc now rel]) rel.from_ rel.from_uri st1 p1 a1 h1
        have hs2 := processEndpoint_spec now st1 p1 a1 rel.to_ rel.to_uri
          st2 p2 a2 h2
        have ih := genLoop_spec now rest st2 p2 a2 st' p' a' h
        obtain ⟨ihRel, ihRes, ihP⟩ := ih
        obtain ⟨hp1, hrel1, hres1⟩ := hs1
        obtain ⟨hp2, hrel2, hres2⟩ := hs2
        have hadd : p2 = processed ++ addedBy processed rel := by
          rw [hp2, hp1, addedBy]
          simp [List.append_assoc, hp1]
        refine ⟨?_, ?_, ?_⟩
        · rw [ihRel, hrel2, hrel1]
          simp [List.filter_append, isRelDoc_relationship_doc, List.append_assoc]
        · rw [ihRes, hres2, hres1, hadd]
          simp only [List.filter_append, List.map_append, newIds]
          simp [isResDoc_relationship_doc, addedBy, hp1, List.append_assoc]
        · rw [ihP, hadd, newIds]
          simp [List.append_assoc]

theorem get_resource_data_hit (st : Proc) (rid : String) (r : JValue)
    (h : lookupField st.resource_cache rid = some r) :
    get_resource_data st rid = .ok (st, some r, []) := by
  unfold get_resource_data
  rw [h]

theorem load_json_file_state (st : Proc) (filename : String) :
    (load_json_file st filename).1 = st := rfl

theorem mem_dictInsert (d : List (String × JValue)) (k : String) (v : JValue)
    (p : String × JValue) (h : p ∈ dictInsert d k v) : p ∈ d ∨ p = (k, v) := by
  unfold dictInsert at h
  split at h
  · rcases List.mem_map.1 h with ⟨q, hq, hpq⟩
    by_cases hqk : q.1 == k
    · right
      rw [← hpq]
      simp [hqk]
    · left
      rw [← hpq]
      simpa [hqk] using hq
  · rcases List.mem_append.1 h with h | h
    · exact Or.inl h
    · right
      simpa using h

theorem scanResources_spec (rid : String) :
    ∀ (items : List JValue) (cache cache' : List (String × JValue))
      (res : Option JValue),
      scanResources rid cache items = .ok (cache', res) →
      (∀ p ∈ cache',
        p ∈ cache ∨ (allKeysIn p.2 = .ok true ∧ computeId p.2 = .ok p.1)) ∧
      (∀ r, res = some r → allKeysIn r = .ok true ∧ computeId r = .ok rid)
  | [], cache, cache', res, h => by
    simp only [scanResources, Except.ok.injEq, Prod.mk.injEq] at h
    obtain ⟨h1, h2⟩ := h
    subst h1
    subst h2
    exact ⟨fun p hp => Or.inl hp, fun r hr => by cases hr⟩
  | r :: rest, cache, cache', res, h => by
    simp only [scanResources] at h
    split at h
    · cases h
    · next hkeys =>
      have ih := scanResources_spec rid rest cache cache' res h
      exact ⟨ih.1, ih.2⟩
    · next hkeys =>
      split at h
      · cases h
      · next cid hcid =>
        split at h
        · next hbeq =>
          simp only [Except.ok.injEq, Prod.mk.injEq] at h
          obtain ⟨h1, h2⟩ := h
          subst h1
          refine ⟨fun p hp => ?_, fun r2 hr2 => ?_⟩
          · rcases mem_dictInsert cache cid r p hp with hin | hkv
            · exact Or.inl hin
            · right
              rw [hkv]
              exact ⟨hkeys, hcid⟩
          · rw [← h2] at hr2
            cases hr2
            exact ⟨hkeys, by rw [hcid, eq_of_beq hbeq]⟩
        · next hbeq =>
          have ih := scanResources_spec rid rest (dictInsert cache cid r) cache' res h
          refine ⟨fun p hp => ?_, ih.2⟩
          rcases ih.1 p hp with hin | hg
          · rcases mem_dictInsert cache cid r p hin with hin2 | hkv
            · exact Or.inl hin2
            · right
              rw [hkv]
              exact ⟨hkeys, hcid⟩
          · exact Or.inr hg

theorem scanFiles_spec (fs : List (String × FileData)) (rid : String) :
    ∀ (files : List (String × FileData)) (cache cache' : List (String × JValue))
      (res : Option JValue) (opened : List String),
      scanFiles fs rid cache files = .ok (cache', res, opened) →
      (∀ p ∈ cache',
        p ∈ cache ∨ (allKeysIn p.2 = .ok true ∧ computeId p.2 = .ok p.1)) ∧
      (∀ r, res = some r → allKeysIn r = .ok true ∧ computeId r = .ok rid)
  | [], cache, cache', res, opened, h => by
    simp only [scanFiles, Except.ok.injEq, Prod.mk.injEq] at h
    obtain ⟨h1, h2, -⟩ := h
    subst h1
    subst h2
    exact ⟨fun p hp => Or.inl hp, fun r hr => by cases hr⟩
  | (fname, fd) :: rest, cache, cache', res, opened, h => by
    simp only [scanFiles] at h
    split at h
    · split at h
      · cases h
      · split at h
        · cases h
        · split at h
          · cases h
          · next cache1 r hscan =>
            simp only [Except.ok.injEq, Prod.mk.injEq] at h
            obtain ⟨h1, h2, -⟩ := h
            subst h1
            have hs := scanResources_spec rid _ cache cache1 (some r) hscan
            exact ⟨hs.1, fun r2 hr2 => by
              rw [← h2] at hr2
              cases hr2
              exact hs.2 r rfl⟩
          · next cache1 hscan =>
            split at h
            · cases h
            · next cache2 res2 opened2 hrec =>
              simp only [Except.ok.injEq, Prod.mk.injEq] at h
              obtain ⟨h1, h2, -⟩ := h
              subst h1
              subst h2
              have hs := scanResources_spec rid _ cache cache1 none hscan
              have ih := scanFiles_spec fs rid rest cache1 _ _ opened2 hrec
              refine ⟨fun p hp => ?_, ih.2⟩
              rcases ih.1 p hp with hin | hg
              · rcases hs.1 p hin with hin2 | hg2
                · exact Or.inl hin2
                · exact Or.inr hg2
              · exact Or.inr hg
    · exact scanFiles_spec fs rid rest cache cache' res opened h

theorem get_resource_data_spec (st : Proc) (rid : String) (st' : Proc)
    (res : Option JValue) (opened : List String)
    (h : get_resource_data st rid = .ok (st', res, opened)) :
    (∀ p ∈ st'.resource_cache,
      p ∈ st.resource_cache ∨
        (allKeysIn p.2 = .ok true ∧ computeId p.2 = .ok p.1)) ∧
    (∀ r, res = some r →
      lookupField st.resource_cache rid = some r ∨
        (allKeysIn r = .ok true ∧ computeId r = .ok rid)) := by
  unfold get_resource_data at h
  split at h
  · next r0 hlook =>
    simp only [Except.ok.injEq, Prod.mk.injEq] at h
    obtain ⟨h1, h2, -⟩ := h
    subst h1
    refine ⟨fun p hp => Or.inl hp, fun r hr => ?_⟩
    rw [← h2] at hr
    cases hr
    exact Or.inl hlook
  · split at h
    · cases h
    · next cache1 res1 opened1 hscan =>
      simp only [Except.ok.injEq, Prod.mk.injEq] at h
      obtain ⟨h1, h2, -⟩ := h
      subst h1
      subst h2
      have hs := scanFiles_spec st.fs rid st.fs st.resource_cache cache1 res1 opened1 hscan
      exact ⟨hs.1, fun r hr => Or.inr (hs.2 r hr)⟩

theorem context_not_found (st : Proc) (rid : String) (st1 : Proc)
    (opened : List String)
    (h : get_resource_data st rid = .ok (st1, none, opened)) :
    generate_resource_context_enhanced st rid =
      .ok (st1, "Resource " ++ rid ++ " information not found") := by
  unfold generate_resource_context_enhanced
  rw [h]
  rfl

theorem bool_eq_false {b : Bool} (h : ¬b = true) : b = false := by
  simp only [Bool.not_eq_true] at h
  exact h

theorem lookupField_cons_pos (a : String) (b : JValue)
    (d : List (String × JValue)) (key : String) (h : (a == key) = true) :
    lookupField ((a, b) :: d) key = some b := by
  simp only [lookupField]
  rw [if_pos h]

theorem lookupField_cons_neg (a : String) (b : JValue)
    (d : List (String × JValue)) (key : String) (h : (a == key) = false) :
    lookupField ((a, b) :: d) key = lookupField d key := by
  simp only [lookupField]
  rw [if_neg (by simp [h])]

theorem lookupField_append_self (k : String) (v : JValue) :
    ∀ d : List (String × JValue), d.any (fun p => p.1 == k) = false →
      lookupField (d ++ [(k, v)]) k = some v
  | [], _ => lookupField_cons_pos k v [] k (by simp)
  | (a, b) :: d, h => by
    simp only [List.any_cons, Bool.or_eq_false_iff] at h
    rw [List.cons_append, lookupField_cons_neg a b _ k h.1]
    exact lookupField_append_self k v d h.2

theorem lookupField_map_self (k : String) (v : JValue) :
    ∀ d : List (String × JValue), d.any (fun p => p.1 == k) = true →
      lookupField (d.map (fun p => if p.1 == k then (k, v) else p)) k = some v
  | [], h => by simp at h
  | (a, b) :: d, h => by
    simp only [List.map_cons]
    by_cases hak : (a == k) = true
    · rw [if_pos hak]
      exact lookupField_cons_pos k v _ k (by simp)
    · have hak2 : (a == k) = false := bool_eq_false hak
      rw [if_neg (by simp [hak2]), lookupField_cons_neg a b _ k hak2]
      have hd : d.any (fun p => p.1 == k) = true := by
        simp only [List.any_cons, hak2, Bool.false_or] at h
        exact h
      exact lookupField_map_self k v d hd

theorem lookupField_dictInsert_self (d : List (String × JValue)) (k : String)
    (v : JValue) : lookupField (dictInsert d k v) k = some v := by
  by_cases h : d.any (fun p => p.1 == k) = true
  · unfold dictInsert
    rw [if_pos h]
    exact lookupField_map_self k v d h
  · unfold dictInsert
    rw [if_neg h]
    exact lookupField_append_self k v d (bool_eq_false h)

theorem lookupField_append_ne (k : String) (v : JValue) (k0 : String)
    (hne : (k == k0) = false) :
    ∀ d : List (String × JValue),
      lookupField (d ++ [(k, v)]) k0 = lookupField d k0
  | [] => lookupField_cons_neg k v [] k0 hne
  | (a, b) :: d => by
    by_cases hab : (a == k0) = true
    · rw [List.cons_append, lookupField_cons_pos a b _ k0 hab,
        lookupField_cons_pos a b d k0 hab]
    · have hab2 : (a == k0) = false := bool_eq_false hab
      rw [List.cons_append, lookupField_cons_neg a b _ k0 hab2,
        lookupField_cons_neg a b d k0 hab2]
      exact lookupField_append_ne k v k0 hne d

theorem lookupField_map_ne (k : String) (v : JValue) (k0 : String)
    (hne : (k == k0) = false) :
    ∀ d : List (String × JValue),
      lookupField (d.map (fun p => if p.1 == k then (k, v) else p)) k0 =
        lookupField d k0
  | [] => rfl
  | (a, b) :: d => by
    simp only [List.map_cons]
    by_cases hak : (a == k) = true
    · have hane : (a == k0) = false := by
        rw [eq_of_beq hak]
        exact hne
      rw [if_pos hak, lookupField_cons_neg k v _ k0 hne,
        lookupField_cons_neg a b d k0 hane]
      exact lookupField_map_ne k v k0 hne d
    · have hak2 : (a == k) = false := bool_eq_false hak
      rw [if_neg (by simp [hak2])]
      by_cases hab : (a == k0) = true
      · rw [lookupField_cons_pos a b _ k0 hab, lookupField_cons_pos a b d k0 hab]
      · have hab2 : (a == k0) = false := bool_eq_false hab
        rw [lookupField_cons_neg a b _ k0 hab2,
          lookupField_cons_neg a b d k0 hab2]
        exact lookupField_map_ne k v k0 hne d

theorem lookupField_dictInsert_ne (d : List (String × JValue)) (k : String)
    (v : JValue) (k0 : String) (hne : (k == k0) = false) :
    lookupField (dictInsert d k v) k0 = lookupField d k0 := by
  by_cases h : d.any (fun p => p.1 == k) = true
  · unfold dictInsert
    rw [if_pos h]
    exact lookupField_map_ne k v k0 hne d
  · unfold dictInsert
    rw [if_neg h]
    exact lookupField_append_ne k v k0 hne d

theorem lookupField_dictInsert_preserve (d : List (String × JValue))
    (k : String) (v : JValue) (k0 : String) (v0 : JValue)
    (h : lookupField d k0 = some v0) :
    ∃ v1, lookupField (dictInsert d k v) k0 = some v1 := by
  by_cases hk : (k == k0) = true
  · have he : k = k0 := eq_of_beq hk
    subst he
    exact ⟨v, lookupField_dictInsert_self d k v⟩
  · have hk2 : (k == k0) = false := bool_eq_false hk
    exact ⟨v0, by rw [lookupField_dictInsert_ne d k v k0 hk2, h]⟩

/-- Claim C7 language: every record of items that passes the three-key
guard is cached in d under its computed canonical id. -/
def recordsCached (items : List JValue) (d : List (String × JValue)) : Prop :=
  ∀ r ∈ items, allKeysIn r = .ok true →
    ∀ cid, computeId r = .ok cid → ∃ r2, lookupField d cid = some r2

/-- Claim C7 language: every guard-passing record of every .json unit of
the given listing slice is cached in d. -/
def unitsCached (fs files : List (String × FileData))
    (d : List (String × JValue)) : Prop :=
  ∀ fname fd, (fname, fd) ∈ files → pyEndsWith fname ".json" = true →
    ∀ v, load_json_value fs fname = .ok v →
      ∀ items, pyIterate v = .ok items → recordsCached items d

theorem recordsCached_mono (items : List JValue)
    (d d2 : List (String × JValue)) (h : recordsCached items d)
    (hm : ∀ k0 v0, lookupField d k0 = some v0 →
      ∃ v1, lookupField d2 k0 = some v1) :
    recordsCached items d2 := by
  intro r hr hg cid hcid
  obtain ⟨r2, h2⟩ := h r hr hg cid hcid
  exact hm cid r2 h2

theorem scanResources_keys_mono (rid : String) :
    ∀ (items : List JValue) (cache cache' : List (String × JValue))
      (res : Option JValue),
      scanResources rid cache items = .ok (cache', res) →
      ∀ k0 v0, lookupField cache k0 = some v0 →
        ∃ v1, lookupField cache' k0 = some v1
  | [], cache, cache', res, h, k0, v0, h0 => by
    simp only [scanResources, Except.ok.injEq, Prod.mk.injEq] at h
    obtain ⟨h1, -⟩ := h
    subst h1
    exact ⟨v0, h0⟩
  | r :: rest, cache, cache', res, h, k0, v0, h0 => by
    simp only [scanResources] at h
    split at h
    · cases h
    · exact scanResources_keys_mono rid rest cache cache' res h k0 v0 h0
    · split at h
      · cases h
      · next cid hcid =>
        split at h
        · simp only [Except.ok.injEq, Prod.mk.injEq] at h
          obtain ⟨h1, -⟩ := h
          subst h1
          exact lookupField_dictInsert_preserve cache cid r k0 v0 h0
        · obtain ⟨v1, h1⟩ := lookupField_dictInsert_preserve cache cid r k0 v0 h0
          exact scanResources_keys_mono rid rest (dictInsert cache cid r)
            cache' res h k0 v1 h1

theorem scanResources_none_complete (rid : String) :
    ∀ (items : List JValue) (cache cache' : List (String × JValue)),
      scanResources rid cache items = .ok (cache', none) →
      recordsCached items cache'
  | [], cache, cache', h => by
    intro r hr
    exact absurd hr (List.not_mem_nil r)
  | r0 :: rest, cache, cache', h => by
    simp only [scanResources] at h
    split at h
    · cases h
    · next hkeys =>
      intro r hr hg cid hcid
      rcases List.mem_cons.1 hr with hhead | htail
      · have hg0 : allKeysIn r0 = .ok true := hhead ▸ hg
        rw [hkeys] at hg0
        simp at hg0
      · exact scanResources_none_complete rid rest cache cache' h r htail hg cid hcid
    · next hkeys =>
      split at h
      · cases h
      · next cid0 hcid0 =>
        split at h
        · simp at h
        · intro r hr hg cid hcid
          rcases List.mem_cons.1 hr with hhead | htail
          · have hc0 : computeId r0 = .ok cid := hhead ▸ hcid
            rw [hcid0] at hc0
            injection hc0 with hcc
            subst hcc
            exact scanResources_keys_mono rid rest (dictInsert cache cid0 r0)
              cache' none h cid0 r0 (lookupField_dictInsert_self cache cid0 r0)
          · exact scanResources_none_complete rid rest
              (dictInsert cache cid0 r0) cache' h r htail hg cid hcid

theorem scanResources_found (rid : String) :
    ∀ (items : List JValue) (cache cache' : List (String × JValue)) (r : JValue),
      scanResources rid cache items = .ok (cache', some r) →
      allKeysIn r = .ok true ∧ computeId r = .ok rid ∧
      lookupField cache' rid = some r ∧
      ∃ pre post, items = pre ++ r :: post ∧ recordsCached pre cache'
  | [], cache, cache', r, h => by simp [scanResources] at h
  | r0 :: rest, cache, cache', r, h => by
    simp only [scanResources] at h
    split at h
    · cases h
    · next hkeys =>
      obtain ⟨hg, hc, hl, pre, post, hdec, hpre⟩ :=
        scanResources_found rid rest cache cache' r h
      refine ⟨hg, hc, hl, r0 :: pre, post, by rw [hdec, List.cons_append], ?_⟩
      intro r2 hr2 hg2 cid hcid
      rcases List.mem_cons.1 hr2 with hhead | htail
      · have hg0 : allKeysIn r0 = .ok true := hhead ▸ hg2
        rw [hkeys] at hg0
        simp at hg0
      · exact hpre r2 htail hg2 cid hcid
    · next hkeys =>
      split at h
      · cases h
      · next cid0 hcid0 =>
        split at h
        · next hbeq =>
          simp only [Except.ok.injEq, Prod.mk.injEq, Option.some.injEq] at h
          obtain ⟨h1, h2⟩ := h
          subst h1
          subst h2
          have hrid : cid0 = rid := eq_of_beq hbeq
          subst hrid
          refine ⟨hkeys, hcid0, lookupField_dictInsert_self cache cid0 r0,
            [], rest, rfl, ?_⟩
          intro r2 hr2
          exact absurd hr2 (List.not_mem_nil r2)
        · obtain ⟨hg, hc, hl, pre, post, hdec, hpre⟩ :=
            scanResources_found rid rest (dictInsert cache cid0 r0) cache' r h
          refine ⟨hg, hc, hl, r0 :: pre, post, by rw [hdec, List.cons_append], ?_⟩
          intro r2 hr2 hg2 cid hcid
          rcases List.mem_cons.1 hr2 with hhead | htail
          · have hc0 : computeId r0 = .ok cid := hhead ▸ hcid
            rw [hcid0] at hc0
            injection hc0 with hcc
            subst hcc
            exact scanResources_keys_mono rid rest (dictInsert cache cid0 r0)
              cache' (some r) h cid0 r0 (lookupField_dictInsert_self cache cid0 r0)
          · exact hpre r2 htail hg2 cid hcid

theorem scanFiles_keys_mono (fs : List (String × FileData)) (rid : String) :
    ∀ (files : List (String × FileData))
      (cache cache' : List (String × JValue)) (res : Option JValue)
      (opened : List String),
      scanFiles fs rid cache files = .ok (cache', res, opened) →
      ∀ k0 v0, lookupField cache k0 = some v0 →
        ∃ v1, lookupField cache' k0 = some v1
  | [], cache, cache', res, opened, h, k0, v0, h0 => by
    simp only [scanFiles, Except.ok.injEq, Prod.mk.injEq] at h
    obtain ⟨h1, -⟩ := h
    subst h1
    exact ⟨v0, h0⟩
  | (f0, fd0) :: rest, cache, cache', res, opened, h, k0, v0, h0 => by
    simp only [scanFiles] at h
    split at h
    · split at h
      · cases h
      · split at h
        · cases h
        · split at h
          · cases h
          · next cache1 r0 hscan =>
            simp only [Except.ok.injEq, Prod.mk.injEq] at h
            obtain ⟨h1, -⟩ := h
            subst h1
            exact scanResources_keys_mono rid _ cache cache1 (some r0) hscan k0 v0 h0
          · next cache1 hscan =>
            split at h
            · cases h
            · next cache2 res2 opened2 hrec =>
              simp only [Except.ok.injEq, Prod.mk.injEq] at h
              obtain ⟨h1, -⟩ := h
              subst h1
              obtain ⟨v1, h1b⟩ :=
                scanResources_keys_mono rid _ cache cache1 none hscan k0 v0 h0
              exact scanFiles_keys_mono fs rid rest cache1 cache2 res2 opened2
                hrec k0 v1 h1b
    · exact scanFiles_keys_mono fs rid rest cache cache' res opened h k0 v0 h0

theorem scanFiles_none_trace (fs : List (String × FileData)) (rid : String) :
    ∀ (files : List (String × FileData))
      (cache cache' : List (String × JValue)) (opened : List String),
      scanFiles fs rid cache files = .ok (cache', none, opened) →
      opened = (files.filter (fun p => pyEndsWith p.1 ".json")).map Prod.fst
  | [], cache, cache', opened, h => by
    simp only [scanFiles, Except.ok.injEq, Prod.mk.injEq] at h
    obtain ⟨-, -, h3⟩ := h
    rw [← h3]
    rfl
  | (f0, fd0) :: rest, cache, cache', opened, h => by
    simp only [scanFiles] at h
    split at h
    · next hjson0 =>
      split at h
      · cases h
      · split at h
        · cases h
        · split at h
          · cases h
          · simp at h
          · next cache1 hscan =>
            split at h
            · cases h
            · next cache2 res2 opened2 hrec =>
              simp only [Except.ok.injEq, Prod.mk.injEq] at h
              obtain ⟨-, h2, h3⟩ := h
              rw [h2] at hrec
              have ih := scanFiles_none_trace fs rid rest cache1 cache2 opened2 hrec
              rw [← h3, List.filter_cons]
              simp [hjson0, ih]
    · next hjson0 =>
      have ih := scanFiles_none_trace fs rid rest cache cache' opened h
      have hj0 : pyEndsWith f0 ".json" = false := bool_eq_false hjson0
      rw [List.filter_cons]
      simp [hj0, ih]

theorem scanFiles_none_complete (fs : List (String × FileData)) (rid : String) :
    ∀ (files : List (String × FileData))
      (cache cache' : List (String × JValue)) (opened : List String),
      scanFiles fs rid cache files = .ok (cache', none, opened) →
      unitsCached fs files cache'
  | [], cache, cache', opened, h => by
    intro fname fd hmem
    exact absurd hmem (List.not_mem_nil (fname, fd))
  | (f0, fd0) :: rest, cache, cache', opened, h => by
    simp only [scanFiles] at h
    split at h
    · next hjson0 =>
      split at h
      · cases h
      · next v0 hload0 =>
        split at h
        · cases h
        · next items0 hiter0 =>
          split at h
          · cases h
          · simp at h
          · next cache1 hscan0 =>
            split at h
            · cases h
            · next cache2 res2 opened2 hrec =>
              simp only [Except.ok.injEq, Prod.mk.injEq] at h
              obtain ⟨h1, h2, -⟩ := h
              subst h1
              rw [h2] at hrec
              have hrc : recordsCached items0 cache2 :=
                recordsCached_mono items0 cache1 cache2
                  (scanResources_none_complete rid items0 cache cache1 hscan0)
                  (fun k0 v1 h1b => scanFiles_keys_mono fs rid rest cache1
                    cache2 none opened2 hrec k0 v1 h1b)
              have ihU := scanFiles_none_complete fs rid rest cache1 cache2
                opened2 hrec
              intro fname fd hmem hjson v hv items hitems
              rcases List.mem_cons.1 hmem with hhead | htail
              · have hf : fname = f0 := congrArg Prod.fst hhead
                rw [hf, hload0] at hv
                injection hv with hveq
                rw [← hveq, hiter0] at hitems
                injection hitems with hieq
                rw [← hieq]
                exact hrc
              · exact ihU fname fd htail hjson v hv items hitems
    · next hjson0 =>
      have ihU := scanFiles_none_complete fs rid rest cache cache' opened h
      intro fname fd hmem hjson v hv items hitems
      rcases List.mem_cons.1 hmem with hhead | htail
      · have hf : fname = f0 := congrArg Prod.fst hhead
        rw [hf] at hjson
        exact absurd hjson hjson0
      · exact ihU fname fd htail hjson v hv items hitems

theorem scanFiles_found (fs : List (String × FileData)) (rid : String) :
    ∀ (files : List (String × FileData))
      (cache cache' : List (String × JValue)) (r : JValue)
      (opened : List String),
      scanFiles fs rid cache files = .ok (cache', some r, opened) →
      allKeysIn r = .ok true ∧ computeId r = .ok rid ∧
      lookupField cache' rid = some r ∧
      ∃ (prefiles : List (String × FileData)) (f : String) (fd : FileData)
        (postfiles : List (String × FileData)) (v : JValue)
        (items pre post : List JValue),
        files = prefiles ++ (f, fd) :: postfiles ∧
        pyEndsWith f ".json" = true ∧
        opened = (prefiles.filter (fun p => pyEndsWith p.1 ".json")).map
          Prod.fst ++ [f] ∧
        load_json_value fs f = .ok v ∧
        pyIterate v = .ok items ∧
        items = pre ++ r :: post ∧
        unitsCached fs prefiles cache' ∧
        recordsCached pre cache'
  | [], cache, cache', r, opened, h => by simp [scanFiles] at h
  | (f0, fd0) :: rest, cache, cache', r, opened, h => by
    simp only [scanFiles] at h
    split at h
    · next hjson0 =>
      split at h
      · cases h
      · next v0 hload0 =>
        split at h
        · cases h
        · next items0 hiter0 =>
          split at h
          · cases h
          · next cache1 r0 hscan0 =>
            simp only [Except.ok.injEq, Prod.mk.injEq, Option.some.injEq] at h
            obtain ⟨h1, h2, h3⟩ := h
            subst h1
            subst h2
            obtain ⟨hg, hc, hl, pre, post, hdec, hpre⟩ :=
              scanResources_found rid items0 cache cache1 r0 hscan0
            refine ⟨hg, hc, hl, [], f0, fd0, rest, v0, items0, pre, post, rfl,
              hjson0, by rw [← h3]; rfl, hload0, hiter0, hdec, ?_, hpre⟩
            intro fname fd hmem
            exact absurd hmem (List.not_mem_nil (fname, fd))
          · next cache1 hscan0 =>
            split at h
            · cases h
            · next cache2 res2 opened2 hrec =>
              simp only [Except.ok.injEq, Prod.mk.injEq] at h
              obtain ⟨h1, h2, h3⟩ := h
              subst h1
              rw [h2] at hrec
              obtain ⟨hg, hc, hl, prefiles, f, fd, postfiles, v, items, pre,
                post, hdec, hjson, hop, hload, hiter, hitems, hunits, hpre⟩ :=
                scanFiles_found fs rid rest cache1 cache2 r opened2 hrec
              have hrc : recordsCached items0 cache2 :=
                recordsCached_mono items0 cache1 cache2
                  (scanResources_none_complete rid items0 cache cache1 hscan0)
                  (fun k0 v1 h1b => scanFiles_keys_mono fs rid rest cache1
                    cache2 (some r) opened2 hrec k0 v1 h1b)
              refine ⟨hg, hc, hl, (f0, fd0) :: prefiles, f, fd, postfiles, v,
                items, pre, post, by rw [hdec, List.cons_append], hjson, ?_,
                hload, hiter, hitems, ?_, hpre⟩
              · rw [← h3, hop, List.filter_cons]
                simp [hjson0]
              · intro fname fd2 hmem hjson2 v2 hv2 items2 hitems2
                rcases List.mem_cons.1 hmem with hhead | htail
                · have hf : fname = f0 := congrArg Prod.fst hhead
                  rw [hf, hload0] at hv2
                  injection hv2 with hveq
                  rw [← hveq, hiter0] at hitems2
                  injection hitems2 with hieq
                  rw [← hieq]
                  exact hrc
                · exact hunits fname fd2 htail hjson2 v2 hv2 items2 hitems2
    · next hjson0 =>
      obtain ⟨hg, hc, hl, prefiles, f, fd, postfiles, v, items, pre, post,
        hdec, hjson, hop, hload, hiter, hitems, hunits, hpre⟩ :=
        scanFiles_found fs rid rest cache cache' r opened h
      have hj0 : pyEndsWith f0 ".json" = false := bool_eq_false hjson0
      refine ⟨hg, hc, hl, (f0, fd0) :: prefiles, f, fd, postfiles, v, items,
        pre, post, by rw [hdec, List.cons_append], hjson, ?_, hload, hiter,
        hitems, ?_, hpre⟩
      · rw [hop, List.filter_cons]
        simp [hj0]
      · intro fname fd2 hmem hjson2 v2 hv2 items2 hitems2
        rcases List.mem_cons.1 hmem with hhead | htail
        · have hf : fname = f0 := congrArg Prod.fst hhead
          rw [hf] at hjson2
          exact absurd hjson2 hjson0
        · exact hunits fname fd2 htail hjson2 v2 hv2 items2 hitems2

/-- The spec shape: a sequence of mappings, in claim C8 language. -/
def isSeqOfMappings : JValue → Bool
  | .arr xs => xs.all (fun v => match v with | .obj _ => true | _ => false)
  | _ => false

/-- A fresh processor state, as built by the constructor over an empty
input directory. -/
def procEmpty : Proc :=
  { fs := [], g := [], relationships := [], resource_cache := [] }

/-- A well-formed reference payload. -/
def payloadSite : JValue :=
  .obj [("kind", .str "site"), ("namespace", .str "lla"), ("name", .str "dal3")]

/-- A spec whose single top-level field is a well-formed reference that
also carries a nested well-formed reference key. -/
def fieldsC1 : List (String × JValue) :=
  [("aRef", .obj [("kind", .str "k"), ("namespace", .str "n"),
    ("name", .str "m"), ("bRef", payloadSite)])]

/-- C1: the claim counts every nested well-formed reference key one level
inside every mapping-valued field of spec.  At this input N = 1 and M = 1,
but processing appends 1 edge, not N + M = 2: the elif in process_spec never
scans inside a field whose own key ends in Ref. -/
theorem C1_counterexample :
    countTopRefs fieldsC1 = 1 ∧ countNestedRefsAll fieldsC1 = 1 ∧
    (process_spec procEmpty (create_uri "access" "lla" "a1")
        (JValue.obj fieldsC1) JValue.null).relationships.length ≠
      countTopRefs fieldsC1 + countNestedRefsAll fieldsC1 :=
  ⟨rfl, rfl, by decide⟩

/-- C1 (amended): with M counting nested well-formed reference keys only
inside mapping-valued fields whose own key does not end in Ref, processing a
resource whose identity components contain no # adds exactly N + M edges to
the relationship list, each carrying the canonical id of that resource as
its from field. -/
theorem C1_edge_count (st : Proc) (kind nspace name : String)
    (fields : List (String × JValue)) (res : JValue)
    (hk : '#' ∉ kind.data) (hn : '#' ∉ nspace.data) (hm : '#' ∉ name.data) :
    (process_spec st (create_uri kind nspace name)
        (JValue.obj fields) res).relationships.length =
      st.relationships.length +
        (countTopRefs fields + countNestedRefsNonRef fields) ∧
    ∀ e ∈ (process_spec st (create_uri kind nspace name)
        (JValue.obj fields) res).relationships.drop st.relationships.length,
      e.from_ = kind ++ "_" ++ nspace ++ "_" ++ name := by
  have hrel := process_spec_relationships (create_uri kind nspace name) res fields st
  constructor
  · rw [hrel, List.length_append, flatMap_fieldEdges_length]
  · intro e he
    rw [hrel, List.drop_left] at he
    rcases List.mem_flatMap.1 he with ⟨kv, hkv, hekv⟩
    rw [fieldEdges_from (create_uri kind nspace name) kv e hekv]
    exact pySplitHash1_create_uri kind nspace name hk hn hm

/-- A spec with one top-level reference and one nested reference under a
non-reference field. -/
def fieldsW1 : List (String × JValue) :=
  [("siteRef", payloadSite),
   ("config", .obj [("vlanRef", .obj [("kind", .str "vlan"),
     ("namespace", .str "lla"), ("name", .str "v100")])])]

theorem C1_edge_count_witness :
    (process_spec procEmpty (create_uri "access" "lla" "a1")
        (JValue.obj fieldsW1) JValue.null).relationships.length =
      procEmpty.relationships.length +
        (countTopRefs fieldsW1 + countNestedRefsNonRef fieldsW1) ∧
    ∀ e ∈ (process_spec procEmpty (create_uri "access" "lla" "a1")
        (JValue.obj fieldsW1) JValue.null).relationships.drop
          procEmpty.relationships.length,
      e.from_ = "access" ++ "_" ++ "lla" ++ "_" ++ "a1" :=
  C1_edge_count procEmpty "access" "lla" "a1" fieldsW1 JValue.null
    (by decide) (by decide) (by decide)

/-- A spec whose only field ends in Ref, is mapping-valued and ill-formed,
and holds a well-formed nested reference key. -/
def fieldsC2 : List (String × JValue) :=
  [("aRef", .obj [("bRef", payloadSite)])]

/-- C2: the claim says nested reference keys are emitted for every
mapping-valued outer field, including keys that themselves end in Ref.  At
this input the nested key bRef ends in Ref with a well-formed payload and
the outer field aRef is mapping-valued, yet processing emits nothing: the
elif branch is unreachable when the outer key ends in Ref. -/
theorem C2_counterexample :
    pyEndsWith "aRef" "Ref" = true ∧
    pyEndsWith "bRef" "Ref" = true ∧
    wellFormedRef payloadSite = true ∧
    (process_spec procEmpty (create_uri "access" "lla" "a1")
        (JValue.obj fieldsC2) JValue.null).relationships = [] :=
  ⟨rfl, rfl, rfl, rfl⟩

/-- C2 (amended): for every key of spec whose value is a mapping and which
does not itself end in Ref, every nested Ref-suffixed key with a well-formed
mapping value is emitted as a reference whose label is the outer key, an
underscore, and the nested key. -/
theorem C2_nested_emitted (st : Proc) (uri : String)
    (fields nested : List (String × JValue)) (res : JValue)
    (k nk : String) (nv : JValue)
    (hmem : (k, JValue.obj nested) ∈ fields)
    (hk : pyEndsWith k "Ref" = false)
    (hnmem : (nk, nv) ∈ nested)
    (hnk : pyEndsWith nk "Ref" = true)
    (hwf : wellFormedRef nv = true) :
    mkEdge uri (k ++ "_" ++ nk) nv ∈
      (process_spec st uri (JValue.obj fields) res).relationships ∧
    (mkEdge uri (k ++ "_" ++ nk) nv).label = k ++ "_" ++ nk := by
  refine ⟨?_, rfl⟩
  rw [process_spec_relationships]
  refine List.mem_append_right _ (List.mem_flatMap.2 ⟨(k, JValue.obj nested), hmem, ?_⟩)
  unfold fieldEdges
  simp only [hk, Bool.false_eq_true, if_false]
  exact List.mem_map.2 ⟨(nk, nv),
    List.mem_filter.2 ⟨hnmem, by simp [hnk, hwf]⟩, rfl⟩

theorem C2_nested_emitted_witness :
    mkEdge (create_uri "access" "lla" "a1") ("config" ++ "_" ++ "vlanRef")
        (JValue.obj [("kind", .str "vlan"), ("namespace", .str "lla"),
          ("name", .str "v100")]) ∈
      (process_spec procEmpty (create_uri "access" "lla" "a1")
        (JValue.obj fieldsW1) JValue.null).relationships ∧
    (mkEdge (create_uri "access" "lla" "a1") ("config" ++ "_" ++ "vlanRef")
        (JValue.obj [("kind", .str "vlan"), ("namespace", .str "lla"),
          ("name", .str "v100")])).label = "config" ++ "_" ++ "vlanRef" :=
  C2_nested_emitted procEmpty (create_uri "access" "lla" "a1") fieldsW1
    [("vlanRef", JValue.obj [("kind", .str "vlan"), ("namespace", .str "lla"),
      ("name", .str "v100")])]
    JValue.null "config" "vlanRef"
    (JValue.obj [("kind", .str "vlan"), ("namespace", .str "lla"),
      ("name", .str "v100")])
    (by simp [fieldsW1]) (by decide) (by simp) (by decide) (by decide)

/-- C3: add_reference_relationship is a total function of its inputs (the
embedding returns a state, never an error): on a payload that is a mapping
holding kind, namespace and name it appends exactly one edge, and on any
other payload it returns the state unchanged, relationship list and graph
included. -/
theorem C3_add_reference_total (st : Proc) (uri label : String) (v : JValue) :
    (wellFormedRef v = true →
      (add_reference_relationship st uri label v).relationships =
        st.relationships ++ [mkEdge uri label v]) ∧
    (wellFormedRef v = false → add_reference_relationship st uri label v = st) := by
  constructor
  · intro h
    simp [add_reference_relationship, h]
  · intro h
    simp [add_reference_relationship, h]

/-- A reference-shaped payload missing name. -/
def payloadNoName : JValue :=
  .obj [("kind", .str "site"), ("namespace", .str "lla")]

theorem C3_add_reference_total_witness :
    (add_reference_relationship procEmpty (create_uri "access" "lla" "a1")
        "siteRef" payloadSite).relationships =
      procEmpty.relationships ++
        [mkEdge (create_uri "access" "lla" "a1") "siteRef" payloadSite] ∧
    add_reference_relationship procEmpty (create_uri "access" "lla" "a1")
        "siteRef" payloadNoName = procEmpty :=
  ⟨(C3_add_reference_total procEmpty (create_uri "access" "lla" "a1")
      "siteRef" payloadSite).1 (by decide),
   (C3_add_reference_total procEmpty (create_uri "access" "lla" "a1")
      "siteRef" payloadNoName).2 (by decide)⟩

/-- C4: over the complete relationship list, a successful synthesis emits
exactly one relationship document per edge in edge order, and exactly one
resource document per distinct identity occurring as the from or to of any
edge, however many edges touch it: the resource-document ids are
duplicate-free and cover exactly the touched identities. -/
theorem C4_synthesize (st : Proc) (now : String) (st' : Proc)
    (docs : List VectorDoc)
    (h : generate_vector_ingestion_data st now = .ok (st', docs)) :
    docs.filter isRelDoc = st.relationships.map (relationship_doc now) ∧
    (docs.filter isResDoc).map VectorDoc.id = newIds [] st.relationships ∧
    (newIds [] st.relationships).Nodup ∧
    (∀ x, x ∈ newIds [] st.relationships ↔
      ∃ r ∈ st.relationships, r.from_ = x ∨ r.to_ = x) := by
  unfold generate_vector_ingestion_data at h
  split at h
  · cases h
  · next st1 p1 docs1 hloop =>
    simp only [Except.ok.injEq, Prod.mk.injEq] at h
    obtain ⟨h1, h2⟩ := h
    subst h1
    subst h2
    have hs := genLoop_spec now st.relationships st [] [] st1 p1 docs1 hloop
    obtain ⟨hrel, hres, -⟩ := hs
    refine ⟨by simpa using hrel, by simpa using hres, ?_, ?_⟩
    · have hn := nodup_append_newIds st.relationships [] (by simp)
      simpa using hn
    · intro x
      have hm := mem_append_newIds st.relationships [] x
      simpa using hm

/-- Two edges sharing the target identity d_e_f. -/
def relW4a : RelEntry :=
  { from_ := "a_b_c", to_ := "d_e_f", label := "xRef",
    from_uri := create_uri "a" "b" "c", to_uri := create_uri "d" "e" "f" }

def relW4b : RelEntry :=
  { from_ := "g_h_i", to_ := "d_e_f", label := "yRef",
    from_uri := create_uri "g" "h" "i", to_uri := create_uri "d" "e" "f" }

def stW4 : Proc :=
  { fs := [], g := [], relationships := [relW4a, relW4b], resource_cache := [] }

/-- The computed synthesis outcome on the two-edge store. -/
def w4res : Proc × List VectorDoc :=
  match generate_vector_ingestion_data stW4 "T0" with
  | .ok pr => pr
  | .error _ => (stW4, [])

theorem C4_synthesize_witness :
    w4res.2.filter isRelDoc = stW4.relationships.map (relationship_doc "T0") ∧
    (w4res.2.filter isResDoc).map VectorDoc.id = newIds [] stW4.relationships ∧
    (newIds [] stW4.relationships).Nodup ∧
    (∀ x, x ∈ newIds [] stW4.relationships ↔
      ∃ r ∈ stW4.relationships, r.from_ = x ∨ r.to_ = x) :=
  C4_synthesize stW4 "T0" w4res.1 w4res.2 (by rfl)

/-- C5: a dangling reference is not an error.  The edge-adding operation
appends its edge for any well-formed payload without consulting the store
(third conjunct), and on a run whose single edge has an unresolvable target
the synthesis still succeeds, emitting for that identity a resource document
whose content is the not-found sentence while its metadata still carries the
kind, namespace, name and uri fields recovered from the identity. -/
theorem C5_dangling (st st1 st2 : Proc) (rel : RelEntry) (now cF : String)
    (opened : List String)
    (hrels : st.relationships = [rel])
    (hne : rel.to_ ≠ rel.from_)
    (h1 : generate_resource_context_enhanced st rel.from_ = .ok (st1, cF))
    (h2 : get_resource_data st1 rel.to_ = .ok (st2, none, opened)) :
    generate_vector_ingestion_data st now =
      .ok (st2, [relationship_doc now rel,
        resource_doc now rel.from_ cF rel.from_uri,
        resource_doc now rel.to_
          ("Resource " ++ rel.to_ ++ " information not found") rel.to_uri]) ∧
    (resource_doc now rel.to_
        ("Resource " ++ rel.to_ ++ " information not found") rel.to_uri).metadata =
      .resMeta (create_resource_description rel.to_).kind
        (create_resource_description rel.to_).nspace
        (create_resource_description rel.to_).name rel.to_uri now ∧
    ∀ (stx : Proc) (uri label : String) (v : JValue), wellFormedRef v = true →
      (add_reference_relationship stx uri label v).relationships =
        stx.relationships ++ [mkEdge uri label v] := by
  have hctx2 := context_not_found st1 rel.to_ st2 opened h2
  refine ⟨?_, rfl, ?_⟩
  · unfold generate_vector_ingestion_data
    rw [hrels]
    simp only [genLoop, processEndpoint, List.not_mem_nil, if_false, h1,
      List.nil_append, List.mem_singleton, hne, hctx2, List.append_assoc,
      List.singleton_append, List.cons_append]
  · intro stx uri label v hwf
    simp [add_reference_relationship, hwf]

def relW5 : RelEntry :=
  { from_ := "a_b_c", to_ := "d_e_f", label := "siteRef",
    from_uri := create_uri "a" "b" "c", to_uri := create_uri "d" "e" "f" }

def stW5 : Proc :=
  { fs := [], g := [], relationships := [relW5], resource_cache := [] }

theorem C5_dangling_witness :
    generate_vector_ingestion_data stW5 "T0" =
      .ok (stW5, [relationship_doc "T0" relW5,
        resource_doc "T0" relW5.from_
          "Resource a_b_c information not found" relW5.from_uri,
        resource_doc "T0" relW5.to_
          ("Resource " ++ relW5.to_ ++ " information not found") relW5.to_uri]) ∧
    (resource_doc "T0" relW5.to_
        ("Resource " ++ relW5.to_ ++ " information not found") relW5.to_uri).metadata =
      .resMeta (create_resource_description relW5.to_).kind
        (create_resource_description relW5.to_).nspace
        (create_resource_description relW5.to_).name relW5.to_uri "T0" ∧
    ∀ (stx : Proc) (uri label : String) (v : JValue), wellFormedRef v = true →
      (add_reference_relationship stx uri label v).relationships =
        stx.relationships ++ [mkEdge uri label v] :=
  C5_dangling stW5 stW5 stW5 relW5 "T0"
    "Resource a_b_c information not found" [] rfl (by decide) (by rfl) (by rfl)

/-- C6: the claim asserts injectivity of the canonical id over all triples.
The underscore separator may occur inside the fields, and then two distinct
triples collide: (a, b_c, d) and (a_b, c, d) share the id a_b_c_d and hence
the URI. -/
theorem C6_counterexample :
    create_uri "a" "b_c" "d" = create_uri "a_b" "c" "d" ∧
    (("a", "b_c", "d") : String × String × String) ≠ ("a_b", "c", "d") :=
  ⟨rfl, by decide⟩

/-- C6 (amended): the resolver is a pure function yielding the namespace
prefix followed by the canonical id (first conjunct) and deterministic
(second conjunct); it is injective once restricted to triples whose kind and
namespace contain no underscore (third conjunct), but not in general, as the
counterexample shows. -/
theorem C6_identity (kind nspace name : String) :
    create_uri kind nspace name =
      llaNS ++ (kind ++ "_" ++ nspace ++ "_" ++ name) ∧
    create_uri kind nspace name = create_uri kind nspace name ∧
    (∀ k2 n2 m2 : String, '_' ∉ kind.data → '_' ∉ nspace.data →
      '_' ∉ k2.data → '_' ∉ n2.data →
      create_uri kind nspace name = create_uri k2 n2 m2 →
      kind = k2 ∧ nspace = n2 ∧ name = m2) := by
  refine ⟨?_, rfl, ?_⟩
  · have hd : (create_uri kind nspace name).data =
        (llaNS ++ (kind ++ "_" ++ nspace ++ "_" ++ name)).data := by
      simp [create_uri, string_data_append, List.append_assoc]
    calc create_uri kind nspace name
        = String.mk (create_uri kind nspace name).data := (string_mk_data _).symm
      _ = String.mk (llaNS ++ (kind ++ "_" ++ nspace ++ "_" ++ name)).data := by
          rw [hd]
      _ = llaNS ++ (kind ++ "_" ++ nspace ++ "_" ++ name) := string_mk_data _
  · intro k2 n2 m2 h1 h2 h3 h4 heq
    exact create_uri_inj kind nspace name k2 n2 m2 h1 h2 h3 h4 heq

theorem C6_identity_witness :
    create_uri "site" "lla" "dal3" =
      llaNS ++ ("site" ++ "_" ++ "lla" ++ "_" ++ "dal3") ∧
    ("site" = "site" ∧ "lla" = "lla" ∧ "dal3" = "dal3") :=
  ⟨(C6_identity "site" "lla" "dal3").1,
   (C6_identity "site" "lla" "dal3").2.2 "site" "lla" "dal3"
     (by decide) (by decide) (by decide) (by decide) rfl⟩

/-- A directory holding one file with one well-formed record of id k_n_a. -/
def resC7 : JValue :=
  .obj [("kind", .str "k"), ("namespace", .str "n"), ("name", .str "a")]

def stC7 : Proc :=
  { fs := [("r.json", .value (.arr [resC7]))], g := [],
    relationships := [], resource_cache := [] }

/-- The state after one full miss: every record cached. -/
def stC7b : Proc :=
  { stC7 with resource_cache := [("k_n_a", resC7)] }

/-- C7: the claim says the store scans the input units at most once per
store instance.  On this store the first missing lookup scans r.json and
caches everything there is to cache, yet the second missing lookup on the
very same instance opens r.json again: the scan happens on every miss, with
no once-per-instance latch. -/
theorem C7_counterexample :
    get_resource_data stC7 "absent1" = .ok (stC7b, none, ["r.json"]) ∧
    get_resource_data stC7b "absent2" = .ok (stC7b, none, ["r.json"]) :=
  ⟨rfl, rfl⟩

/-- C7 (amended): the cache is checked first and a hit answers from the
cache with no file read (first conjunct).  On every miss the store rescans
the input listing anew, with no once-per-instance latch: whatever the cache
already holds, an unsuccessful lookup opens every .json unit of the listing
(second conjunct) and caches every guard-passing record of every one of
them under its computed canonical id (third conjunct); a lookup satisfied
during the scan returns the matching record directly from the scan — the
match passed the guard under the requested id and is cached under it at
return, the units opened are exactly the .json units up to and including
the matching one, and every guard-passing record encountered before the
match, in fully scanned units or in the matching unit before the match, is
cached (fourth conjunct).  Any cache entry added by a lookup passed the
three-key guard with its key the computed id, and any returned record is
the cached one or passed the guard under the requested id (fifth
conjunct); load alone leaves the instance state, cache included, untouched
(sixth conjunct). -/
theorem C7_lookup (st : Proc) (rid : String) :
    (∀ r, lookupField st.resource_cache rid = some r →
      get_resource_data st rid = .ok (st, some r, [])) ∧
    (∀ st' opened, get_resource_data st rid = .ok (st', none, opened) →
      opened = (st.fs.filter (fun p => pyEndsWith p.1 ".json")).map Prod.fst) ∧
    (∀ st' opened, get_resource_data st rid = .ok (st', none, opened) →
      unitsCached st.fs st.fs st'.resource_cache) ∧
    (∀ st' r opened, lookupField st.resource_cache rid = none →
      get_resource_data st rid = .ok (st', some r, opened) →
      allKeysIn r = .ok true ∧ computeId r = .ok rid ∧
      lookupField st'.resource_cache rid = some r ∧
      ∃ (prefiles : List (String × FileData)) (f : String) (fd : FileData)
        (postfiles : List (String × FileData)) (v : JValue)
        (items pre post : List JValue),
        st.fs = prefiles ++ (f, fd) :: postfiles ∧
        pyEndsWith f ".json" = true ∧
        opened = (prefiles.filter (fun p => pyEndsWith p.1 ".json")).map
          Prod.fst ++ [f] ∧
        load_json_value st.fs f = .ok v ∧
        pyIterate v = .ok items ∧
        items = pre ++ r :: post ∧
        unitsCached st.fs prefiles st'.resource_cache ∧
        recordsCached pre st'.resource_cache) ∧
    (∀ st' res opened, get_resource_data st rid = .ok (st', res, opened) →
      (∀ p ∈ st'.resource_cache,
        p ∈ st.resource_cache ∨
          (allKeysIn p.2 = .ok true ∧ computeId p.2 = .ok p.1)) ∧
      (∀ r, res = some r →
        lookupField st.resource_cache rid = some r ∨
          (allKeysIn r = .ok true ∧ computeId r = .ok rid))) ∧
    (∀ filename, (load_json_file st filename).1 = st) := by
  refine ⟨fun r h => get_resource_data_hit st rid r h, ?_, ?_, ?_,
    fun st' res opened h => get_resource_data_spec st rid st' res opened h,
    fun filename => rfl⟩
  · intro st' opened h
    unfold get_resource_data at h
    split at h
    · simp at h
    · split at h
      · cases h
      · next cache1 res1 opened1 hscan =>
        simp only [Except.ok.injEq, Prod.mk.injEq] at h
        obtain ⟨-, h2, h3⟩ := h
        rw [h2] at hscan
        rw [← h3]
        exact scanFiles_none_trace st.fs rid st.fs st.resource_cache cache1
          opened1 hscan
  · intro st' opened h
    unfold get_resource_data at h
    split at h
    · simp at h
    · split at h
      · cases h
      · next cache1 res1 opened1 hscan =>
        simp only [Except.ok.injEq, Prod.mk.injEq] at h
        obtain ⟨h1, h2, -⟩ := h
        rw [h2] at hscan
        rw [← h1]
        exact scanFiles_none_complete st.fs rid st.fs st.resource_cache cache1
          opened1 hscan
  · intro st' r opened hmiss h
    unfold get_resource_data at h
    split at h
    · next r0 hl =>
      rw [hmiss] at hl
      cases hl
    · split at h
      · cases h
      · next cache1 res1 opened1 hscan =>
        simp only [Except.ok.injEq, Prod.mk.injEq] at h
        obtain ⟨h1, h2, h3⟩ := h
        rw [h2] at hscan
        rw [← h3, ← h1]
        exact scanFiles_found st.fs rid st.fs st.resource_cache cache1 r
          opened1 hscan

theorem C7_lookup_witness :
    get_resource_data stC7b "k_n_a" = .ok (stC7b, some resC7, []) ∧
    ["r.json"] =
      (stC7b.fs.filter (fun p => pyEndsWith p.1 ".json")).map Prod.fst ∧
    unitsCached stC7b.fs stC7b.fs stC7b.resource_cache ∧
    (allKeysIn resC7 = .ok true ∧ computeId resC7 = .ok "k_n_a" ∧
      lookupField stC7b.resource_cache "k_n_a" = some resC7 ∧
      ∃ (prefiles : List (String × FileData)) (f : String) (fd : FileData)
        (postfiles : List (String × FileData)) (v : JValue)
        (items pre post : List JValue),
        stC7.fs = prefiles ++ (f, fd) :: postfiles ∧
        pyEndsWith f ".json" = true ∧
        ["r.json"] = (prefiles.filter (fun p => pyEndsWith p.1 ".json")).map
          Prod.fst ++ [f] ∧
        load_json_value stC7.fs f = .ok v ∧
        pyIterate v = .ok items ∧
        items = pre ++ resC7 :: post ∧
        unitsCached stC7.fs prefiles stC7b.resource_cache ∧
        recordsCached pre stC7b.resource_cache) ∧
    (load_json_file stC7 "r.json").1 = stC7 :=
  ⟨(C7_lookup stC7b "k_n_a").1 resC7 rfl,
   (C7_lookup stC7b "absent2").2.1 stC7b ["r.json"] rfl,
   (C7_lookup stC7b "absent2").2.2.1 stC7b ["r.json"] rfl,
   (C7_lookup stC7 "k_n_a").2.2.2.1 stC7b resC7 ["r.json"] rfl rfl,
   (C7_lookup stC7 "k_n_a").2.2.2.2.2 "r.json"⟩

/-- A directory with a file parsing to a bare number and a file that is not
valid JSON. -/
def fsC8 : List (String × FileData) :=
  [("num.json", .value (.num 5)), ("bad.json", .invalid)]

/-- C8: the claim says load fails when the unit exists but cannot be parsed
as a sequence of mappings.  A unit holding the valid JSON text 5 exists and
is not a sequence of mappings, yet load returns it instead of aborting: only
syntactically invalid JSON raises. -/
theorem C8_counterexample :
    lookupFile fsC8 "num.json" = some (.value (.num 5)) ∧
    load_json_value fsC8 "num.json" = .ok (.num 5) ∧
    isSeqOfMappings (.num 5) = false :=
  ⟨rfl, rfl, rfl⟩

/-- C8 (amended): load returns the empty sequence when the unit does not
exist, re-raises the parse error when the unit exists but is not valid
JSON, and returns the parsed value unchanged for any valid JSON, whether or
not it is a sequence of mappings. -/
theorem C8_load (fs : List (String × FileData)) (filename : String) :
    (lookupFile fs filename = none →
      load_json_value fs filename = .ok (.arr [])) ∧
    (lookupFile fs filename = some .invalid →
      load_json_value fs filename = .error "json.decoder.JSONDecodeError") ∧
    (∀ v, lookupFile fs filename = some (.value v) →
      load_json_value fs filename = .ok v) := by
  refine ⟨fun h => ?_, fun h => ?_, fun v h => ?_⟩ <;>
    simp [load_json_value, h]

theorem C8_load_witness :
    load_json_value fsC8 "missing.json" = .ok (.arr []) ∧
    load_json_value fsC8 "bad.json" = .error "json.decoder.JSONDecodeError" ∧
    load_json_value fsC8 "num.json" = .ok (.num 5) :=
  ⟨(C8_load fsC8 "missing.json").1 rfl,
   (C8_load fsC8 "bad.json").2.1 rfl,
   (C8_load fsC8 "num.json").2.2 (.num 5) rfl⟩

/-- C9: asserting the same type fact twice is observably a no-op: the graph
state after two identical assertions equals the state after one, and type
assertion preserves freedom from duplicate triples, so no duplicate type
artifact can reach the ontology export. -/
theorem C9_assert_type_idem (st : Proc) (uri kind : String) :
    assert_type (assert_type st uri kind) uri kind = assert_type st uri kind ∧
    (st.g.Nodup → (assert_type st uri kind).g.Nodup) := by
  constructor
  · simp [assert_type, graphAdd_idem]
  · intro h
    exact graphAdd_nodup st.g _ h

theorem C9_assert_type_idem_witness :
    assert_type (assert_type procEmpty (create_uri "site" "lla" "dal3") "site")
        (create_uri "site" "lla" "dal3") "site" =
      assert_type procEmpty (create_uri "site" "lla" "dal3") "site" ∧
    (assert_type procEmpty (create_uri "site" "lla" "dal3") "site").g.Nodup :=
  ⟨(C9_assert_type_idem procEmpty (create_uri "site" "lla" "dal3") "site").1,
   (C9_assert_type_idem procEmpty (create_uri "site" "lla" "dal3") "site").2
     (by simp [procEmpty])⟩

/-- C10: a relationship document id is rel_ followed by from and to joined
with an underscore, with no label contribution, so two edges between the
same endpoints differing only in label yield documents with identical ids;
and the source-description metadata is recovered by splitting the canonical
id on underscores, kind and namespace being the first two segments and the
name the rejoined remainder, not read from any loaded record (the document
builder takes no store argument). -/
theorem C10_relationship_doc_id (now1 now2 : String) (r1 r2 : RelEntry)
    (hf : r1.from_ = r2.from_) (ht : r1.to_ = r2.to_)
    (k n m : String) (hk : '_' ∉ k.data) (hn : '_' ∉ n.data)
    (hr : r1.from_ = k ++ "_" ++ n ++ "_" ++ m) :
    (relationship_doc now1 r1).id = "rel_" ++ r1.from_ ++ "_" ++ r1.to_ ∧
    (relationship_doc now1 r1).id = (relationship_doc now2 r2).id ∧
    (relationship_doc now1 r1).metadata = .relMeta r1.label
      (create_resource_description r1.from_)
      (create_resource_description r1.to_) r1.from_uri r1.to_uri now1 ∧
    create_resource_description r1.from_ =
      { resource_id := r1.from_, kind := k, nspace := n, name := m } := by
  refine ⟨rfl, ?_, rfl, ?_⟩
  · simp [relationship_doc, hf, ht]
  · rw [hr]
    exact create_resource_description_eq k n m hk hn

def relW10a : RelEntry :=
  { from_ := "svc_lla_a", to_ := "site_lla_b", label := "xRef",
    from_uri := create_uri "svc" "lla" "a", to_uri := create_uri "site" "lla" "b" }

def relW10b : RelEntry :=
  { from_ := "svc_lla_a", to_ := "site_lla_b", label := "yRef",
    from_uri := create_uri "svc" "lla" "a", to_uri := create_uri "site" "lla" "b" }

theorem C10_relationship_doc_id_witness :
    (relationship_doc "T1" relW10a).id =
      "rel_" ++ relW10a.from_ ++ "_" ++ relW10a.to_ ∧
    (relationship_doc "T1" relW10a).id = (relationship_doc "T2" relW10b).id ∧
    (relationship_doc "T1" relW10a).metadata = .relMeta relW10a.label
      (create_resource_description relW10a.from_)
      (create_resource_description relW10a.to_)
      relW10a.from_uri relW10a.to_uri "T1" ∧
    create_resource_description relW10a.from_ =
      { resource_id := relW10a.from_, kind := "svc", nspace := "lla",
        name := "a" } :=
  C10_relationship_doc_id "T1" "T2" relW10a relW10b rfl rfl "svc" "lla" "a"
    (by decide) (by decide) rfl
